import Mathlib

/-!
Formal model of the cross-linking distance core of the biobox notebook
repository: solvent-accessible shortest-path distances between candidate
cross-link sites, computed by voxelizing the blocking atoms into an
obstacle grid, bounding each query pair to a local search window, running
an any-angle (lazy Theta*-style) best-first grid search, greedily
smoothing the raw voxel path, and assembling a symmetric distance matrix
with the sentinel codes -1 (out of reach) and -2 (no path found).

The implementation of the core (biobox's `Xlink` class and the selection
methods of `Molecule`) is not part of the notebook sources, which only
call it; the definitions below are therefore modelled from the
specification's component contracts.  Distances are measured in grid
units (the voxel edge is the unit of length), which is also the unit the
specification uses for the out-of-range test.
-/

/-- Integer voxel coordinates in the obstacle grid. -/
structure V3 where
  x : ℤ
  y : ℤ
  z : ℤ
deriving DecidableEq

/-- Rational real-space coordinates (positions of atoms). -/
structure Q3 where
  x : ℚ
  y : ℚ
  z : ℚ
deriving DecidableEq

/-- Chebyshev distance between voxels; 26-connected adjacency is `cheb ≤ 1`. -/
def cheb (a b : V3) : ℤ := max |a.x - b.x| (max |a.y - b.y| |a.z - b.z|)

/-- 26-connected voxel adjacency (identical voxels also count, harmlessly). -/
def adjacent (a b : V3) : Bool := decide (cheb a b ≤ 1)

/-- Squared Euclidean distance between voxel coordinates, in grid units. -/
def sqDist (a b : V3) : ℤ := (a.x - b.x) ^ 2 + (a.y - b.y) ^ 2 + (a.z - b.z) ^ 2

/-- Chebyshev distance as a natural number (number of line-walk steps). -/
def chebN (a b : V3) : ℕ := (cheb a b).toNat

/-- List of the integers of the closed interval `[a, b]`. -/
def rangeZ (a b : ℤ) : List ℤ := (List.range (b - a + 1).toNat).map (fun (k : ℕ) => a + (k : ℤ))

/-!
Modelled from the spec: the Obstacle Grid (§3, §4.1): a voxelized
occupancy volume with an affine voxel-index/real-space mapping (origin,
voxel edge length, extents).  Occupancy is the list of blocked voxel
coordinates.
-/

/-- Obstacle Grid: origin, voxel edge length, extents and blocked voxels. -/
structure ObstacleGrid where
  origin : Q3
  voxelSize : ℚ
  dim : V3
  blockedList : List V3
deriving DecidableEq

/-- Occupancy test of the Obstacle Grid. -/
def isBlocked (g : ObstacleGrid) (v : V3) : Bool := decide (v ∈ g.blockedList)

/-- Floor of `(a - c) / b` computed on numerators and denominators
(`Int.fdiv` rounds toward minus infinity); proved below to agree with
the rational floor. -/
def floorSubDiv (a c b : ℚ) : ℤ :=
  Int.fdiv ((a.num * (c.den : ℤ) - c.num * (a.den : ℤ)) * (b.den : ℤ))
    ((a.den : ℤ) * (c.den : ℤ) * b.num)

/-- Real-space point to voxel index (componentwise floor). -/
def toVoxel (g : ObstacleGrid) (p : Q3) : V3 :=
  ⟨floorSubDiv p.x g.origin.x g.voxelSize, floorSubDiv p.y g.origin.y g.voxelSize,
    floorSubDiv p.z g.origin.z g.voxelSize⟩

/-!
Modelled from the spec: the Local Search Window (§4.2): an axis-aligned
sub-range of voxel indices, derived from a query pair and the maximum
reach, clipped to the grid bounds without ever hiding the endpoints.
-/

/-- Axis-aligned search window: inclusive voxel index bounds. -/
structure Window where
  lo : V3
  hi : V3
deriving DecidableEq

/-- Window membership test. -/
def inWindow (w : Window) (v : V3) : Bool :=
  decide (w.lo.x ≤ v.x ∧ v.x ≤ w.hi.x ∧ w.lo.y ≤ v.y ∧ v.y ≤ w.hi.y ∧
    w.lo.z ≤ v.z ∧ v.z ≤ w.hi.z)

/-- Componentwise minimum of voxel coordinates. -/
def vmin (a b : V3) : V3 := ⟨min a.x b.x, min a.y b.y, min a.z b.z⟩

/-- Componentwise maximum of voxel coordinates. -/
def vmax (a b : V3) : V3 := ⟨max a.x b.x, max a.y b.y, max a.z b.z⟩

/-- Modelled from the spec: window derivation (§4.2).  Returns `none`
(out of range, sentinel -1 downstream) when start and end are farther
apart (Euclidean, in grid units) than `maxReach`; otherwise a box of
half-size `maxReach` around the pair's midpoint, extended to contain both
endpoints and clipped to the grid bounds without hiding the endpoints. -/
def windowFn (g : ObstacleGrid) (s e : V3) (maxReach : ℕ) : Option Window :=
  if (maxReach : ℤ) ^ 2 < sqDist s e then none
  else
    let c : V3 := ⟨(s.x + e.x) / 2, (s.y + e.y) / 2, (s.z + e.z) / 2⟩
    let r : ℤ := (maxReach : ℤ)
    let sm := vmin s e
    let sM := vmax s e
    let lo0 : V3 := vmin ⟨c.x - r, c.y - r, c.z - r⟩ sm
    let hi0 : V3 := vmax ⟨c.x + r, c.y + r, c.z + r⟩ sM
    let lo : V3 := vmin ⟨max lo0.x 0, max lo0.y 0, max lo0.z 0⟩ sm
    let hi : V3 := vmax ⟨min hi0.x (g.dim.x - 1), min hi0.y (g.dim.y - 1),
      min hi0.z (g.dim.z - 1)⟩ sM
    some ⟨lo, hi⟩

/-- All voxels of a window, enumerated axis by axis. -/
def boxCells (w : Window) : List V3 :=
  (rangeZ w.lo.x w.hi.x).flatMap (fun i =>
    (rangeZ w.lo.y w.hi.y).flatMap (fun j =>
      (rangeZ w.lo.z w.hi.z).map (fun k => ⟨i, j, k⟩)))

/-!
Modelled from the spec: line-of-sight tests (§4.3, §4.4): step through
the voxels along the straight segment between two voxels and confirm
that none of the intermediate ones is blocked.  The segment is walked at
one sample per Chebyshev step, rounding each coordinate to the nearest
voxel.
-/

/-- Round-half-up integer division: nearest integer to `n / d` for `d > 0`. -/
def rdiv (n d : ℤ) : ℤ := (2 * n + d) / (2 * d)

/-- One coordinate of the `k`-th sample of the voxel walk from `a` to `b`
in `K` Chebyshev steps. -/
def lerp1 (a b k K : ℤ) : ℤ := rdiv (a * (K - k) + b * k) K

/-- The `k`-th voxel of the straight walk from `a` to `b` in `K` steps. -/
def segPoint (a b : V3) (K k : ℤ) : V3 :=
  ⟨lerp1 a.x b.x k K, lerp1 a.y b.y k K, lerp1 a.z b.z k K⟩

/-- All voxels stepped through along the straight segment from `a` to `b`,
endpoints included. -/
def segCells (a b : V3) : List V3 :=
  if chebN a b = 0 then [a]
  else (List.range (chebN a b + 1)).map
    (fun (k : ℕ) => segPoint a b (chebN a b : ℤ) (k : ℤ))

/-- Line-of-sight test: none of the voxels strictly between `a` and `b`
on the straight segment is blocked. -/
def losFree (g : ObstacleGrid) (a b : V3) : Bool :=
  (List.range (chebN a b - 1)).all
    (fun (k : ℕ) => !isBlocked g (segPoint a b (chebN a b : ℤ) ((k : ℤ) + 1)))

/-- Collision-free straight line: every voxel stepped through from `a` to
`b`, endpoints included, is unblocked. -/
def segFree (g : ObstacleGrid) (a b : V3) : Bool :=
  (segCells a b).all (fun v => !isBlocked g v)

/-- Modelled from the spec: passability during one planner invocation
(§4.3): a voxel is passable when it lies in the search window and is
unblocked, except that with `flexible_sidechain` the immediate 1-voxel
neighborhood of the two endpoint voxels is treated as passable. -/
def passable (g : ObstacleGrid) (w : Window) (flex : Bool) (s e v : V3) : Bool :=
  inWindow w v && (!isBlocked g v || (flex && (adjacent v s || adjacent v e)))

/-!
Modelled from the spec: the Path Planner (§4.3): best-first grid search
over the windowed grid, 26-connected neighbors, Euclidean grid distance
as cost and Euclidean straight-line distance to goal as heuristic (held
in fixed-point, one thousandth of a voxel edge), with the lazy any-angle
re-parenting check performed when a node is popped from the open set.
Blocked voxels are never expanded; failure is reported when the open set
is exhausted before the goal is reached.
-/

/-- Fixed-point Euclidean distance between voxels (milli-voxel units),
used for the best-first priority and the accumulated path cost. -/
def fpDist (a b : V3) : ℕ := Nat.sqrt ((sqDist a b).toNat * 1000000)

/-- Search node: voxel, back-reference to its predecessor, path cost. -/
structure Node where
  pos : V3
  parent : V3
  gc : ℕ
deriving DecidableEq

/-- Best-first priority: accumulated cost plus straight-line heuristic. -/
def nodeF (goal : V3) (n : Node) : ℕ := n.gc + fpDist n.pos goal

/-- Pop a node of minimal priority from the open set. -/
def popMin (goal : V3) : List Node → Option (Node × List Node)
  | [] => none
  | n :: rest =>
    match popMin goal rest with
    | none => some (n, rest)
    | some (m, rest2) =>
      if nodeF goal n ≤ nodeF goal m then some (n, rest) else some (m, n :: rest2)

/-- Find the closed node for a voxel, if it has been closed. -/
def lookupNode (closed : List Node) (v : V3) : Option Node :=
  closed.find? (fun n => decide (n.pos = v))

/-- Has this voxel already been closed? -/
def isClosed (closed : List Node) (v : V3) : Bool := (lookupNode closed v).isSome

/-- Lazy any-angle re-parenting, evaluated when a node is popped: if the
predecessor of the node's parent has unobstructed line of sight to the
node, rebind the node's parent to that predecessor and recompute the cost
from the straight-line distance. -/
def reparent (los : V3 → V3 → Bool) (closed : List Node) (n : Node) : Node :=
  match lookupNode closed n.parent with
  | none => n
  | some pn =>
    match lookupNode closed pn.parent with
    | none => n
    | some ppn =>
      if los ppn.pos n.pos then ⟨n.pos, ppn.pos, ppn.gc + fpDist ppn.pos n.pos⟩ else n

/-- The 26 offsets of the 3D neighbor set. -/
def offsets : List V3 :=
  ((List.range 3).flatMap (fun (i : ℕ) =>
    (List.range 3).flatMap (fun (j : ℕ) =>
      (List.range 3).map (fun (k : ℕ) => (⟨(i : ℤ) - 1, (j : ℤ) - 1, (k : ℤ) - 1⟩ : V3))))).filter
    (fun v => decide (v ≠ ⟨0, 0, 0⟩))

/-- The 26-connected neighbors of a voxel. -/
def nbrs (p : V3) : List V3 := offsets.map (fun o => ⟨p.x + o.x, p.y + o.y, p.z + o.z⟩)

/-- Generate the open-set entries for the passable, not yet closed
neighbors of a voxel being expanded. -/
def expandNbrs (pass : V3 → Bool) (closed : List Node) (p : V3) (gc : ℕ) : List Node :=
  ((nbrs p).filter (fun u => pass u && !isClosed closed u)).map
    (fun u => ⟨u, p, gc + fpDist p u⟩)

/-- Reconstruct the voxel path from the closed set by following parent
back-references down to the self-parented start node. -/
def reconstruct (closed : List Node) : ℕ → V3 → List V3
  | 0, v => [v]
  | fuel + 1, v =>
    match lookupNode closed v with
    | none => [v]
    | some n => if n.parent = v then [v] else reconstruct closed fuel n.parent ++ [v]

/-- Result of one planner invocation. -/
inductive SearchResult where
  | found (p : List V3)
  | notFound
  | fuelOut
deriving DecidableEq

/-- Modelled from the spec: the best-first loop (§4.3).  Pop a minimal
open node; discard it if its voxel is already closed; otherwise apply the
lazy re-parenting check, close it, stop with the reconstructed path if it
is the goal, and otherwise push its passable unclosed neighbors.  `.notFound`
is returned exactly when the open set is exhausted before the goal. -/
def loop (los : V3 → V3 → Bool) (pass : V3 → Bool) (goal : V3) :
    ℕ → List Node → List Node → SearchResult
  | 0, _, _ => .fuelOut
  | fuel + 1, opn, closed =>
    match popMin goal opn with
    | none => .notFound
    | some (n, rest) =>
      if isClosed closed n.pos then loop los pass goal fuel rest closed
      else
        let n2 := reparent los closed n
        let closed2 := n2 :: closed
        if n.pos = goal then .found (reconstruct closed2 closed2.length goal)
        else loop los pass goal fuel (rest ++ expandNbrs pass closed2 n.pos n2.gc) closed2

/-- Modelled from the spec: one planner invocation (§4.3) on a window,
with fuel ample for the bounded window (blocked voxels are never
expanded, so the loop can only stop by success or open-set exhaustion). -/
def searchTop (pass : V3 → Bool) (los : V3 → V3 → Bool) (s goal : V3) (w : Window) :
    SearchResult :=
  if pass s && pass goal then loop los pass goal (1 + 27 * (boxCells w).length) [⟨s, s, 0⟩] []
  else .notFound

/-!
Modelled from the spec: the Path Smoother (§4.4): greedy line-of-sight
reduction.  Starting from the first point, advance a candidate last
visible point as far along the sequence as remains collision-free by
straight line (same line-of-sight test as the planner), keep it, repeat.
-/

/-- Index of the farthest point of `l` visible from `a` (0 if none is). -/
def bestJump (los : V3 → V3 → Bool) (a : V3) (l : List V3) : ℕ :=
  (((List.range l.length).reverse).find? (fun j => los a (l.getD j a))).getD 0

/-- Greedy smoothing pass: `a` is the last kept point, `l` the remaining
raw points; fuel is at least `l.length`. -/
def smoothLoop (los : V3 → V3 → Bool) : ℕ → V3 → List V3 → List V3
  | _, a, [] => [a]
  | 0, a, l => a :: l
  | fuel + 1, a, l =>
    let j := bestJump los a l
    a :: smoothLoop los fuel (l.getD j a) (l.drop (j + 1))

/-- Modelled from the spec: greedy line-of-sight path smoothing (§4.4). -/
def smooth (los : V3 → V3 → Bool) (p : List V3) : List V3 :=
  match p with
  | [] => []
  | a :: l => smoothLoop los l.length a l

/-!
Euclidean arc length of a voxel polyline, as a real number (the matrix
records the sum of the segment lengths, not the raw grid-step count).
-/

/-- Voxel coordinates as a point of Euclidean 3-space. -/
noncomputable def toE (v : V3) : EuclideanSpace ℝ (Fin 3) := ![(v.x : ℝ), (v.y : ℝ), (v.z : ℝ)]

/-- Euclidean length of one polyline segment, in grid units. -/
noncomputable def segLen (a b : V3) : ℝ := dist (toE a) (toE b)

/-- Euclidean arc length of a polyline (sum of segment lengths). -/
noncomputable def arcLength : List V3 → ℝ
  | a :: b :: rest => segLen a b + arcLength (b :: rest)
  | _ => 0

/-!
Modelled from the spec: the excluded selection collaborator (§6 inputs):
atom records with their per-atom properties and the two equivalent
selection interfaces of `Molecule`: `atomselect` (chain / residue / name
patterns, `"*"` as wildcard) and the pandas-style `query` over a
conjunction of field filters, both returning the selected positions and
atom indices.
-/

/-- One row of the molecule's atom table. -/
structure AtomRec where
  chain : String
  resname : String
  name : String
deriving DecidableEq

/-- A molecule: atom table plus current-conformation coordinates. -/
structure Molecule where
  atoms : List AtomRec
  coords : List Q3
deriving DecidableEq

/-- One `atomselect` pattern: wildcard, or a list of admissible values
(a single string stands for the one-element list). -/
inductive Sel where
  | any
  | names (l : List String)
deriving DecidableEq

/-- Pattern match of one field value. -/
def selMatch : Sel → String → Bool
  | .any, _ => true
  | .names l, s => decide (s ∈ l)

/-- Does an atom record match the three `atomselect` patterns? -/
def atomMatch (c r n : Sel) (a : AtomRec) : Bool :=
  selMatch c a.chain && selMatch r a.resname && selMatch n a.name

/-- Default atom record for out-of-range table accesses. -/
def defaultAtom : AtomRec := ⟨"", "", ""⟩

/-- Default coordinates for out-of-range accesses. -/
def defaultQ3 : Q3 := ⟨0, 0, 0⟩

/-- Modelled from the spec: `Molecule.atomselect(chain, res, names,
get_index=True)`: positions and indices of the atoms matching the three
patterns. -/
def atomselect (M : Molecule) (c r n : Sel) : List Q3 × List ℕ :=
  let idx := (List.range M.atoms.length).filter
    (fun i => atomMatch c r n (M.atoms.getD i defaultAtom))
  (idx.map (fun i => M.coords.getD i defaultQ3), idx)

/-- Pandas-style query expression: conjunctions of field filters. -/
inductive QExpr where
  | tt
  | chainIn (l : List String)
  | resIn (l : List String)
  | nameIn (l : List String)
  | and (q r : QExpr)
deriving DecidableEq

/-- Evaluate a query expression on one atom record. -/
def qEval (a : AtomRec) : QExpr → Bool
  | .tt => true
  | .chainIn l => decide (a.chain ∈ l)
  | .resIn l => decide (a.resname ∈ l)
  | .nameIn l => decide (a.name ∈ l)
  | .and q r => qEval a q && qEval a r

/-- Modelled from the spec: `Molecule.query(expr, get_index=True)`:
positions and indices of the atoms satisfying the expression. -/
def query (M : Molecule) (q : QExpr) : List Q3 × List ℕ :=
  let idx := (List.range M.atoms.length).filter
    (fun i => qEval (M.atoms.getD i defaultAtom) q)
  (idx.map (fun i => M.coords.getD i defaultQ3), idx)

/-- The query expression equivalent to a triple of `atomselect` patterns
(wildcards add no filter; lists become field membership filters). -/
def queryOfSelect (c r n : Sel) : QExpr :=
  .and (match c with | .any => .tt | .names l => .chainIn l)
    (.and (match r with | .any => .tt | .names l => .resIn l)
      (match n with | .any => .tt | .names l => .nameIn l))

/-!
Modelled from the spec: the Xlink driver object.  `set_clashing_atoms`
selects the clash-relevant atoms, attaches the default radius and builds
the Obstacle Grid once; `setup_local_search` stores the maximum reach of
the moving window; `distance_matrix` assembles the symmetric matrix and
the per-pair path records.  The grid is carried as an explicitly owned
immutable value; every operation returns the resulting driver state.
-/

/-- Configuration error: fatal to the call, reported before any matrix
is produced (§7). -/
inductive CfgErr where
  | degenerate
  | noGrid
  | emptyQuery
  | badMethod
deriving DecidableEq

/-- The Xlink driver state. -/
structure Xlink where
  mol : Molecule
  grid : Option ObstacleGrid
  maxReach : ℕ
deriving DecidableEq

/-- Default per-point radius of clash atoms (≈ 1.4 length units, §6). -/
def defaultRadius : ℚ := 7 / 5

/-- Fold a list of rationals with a binary operation, from a seed. -/
def foldQ (f : ℚ → ℚ → ℚ) (seed : ℚ) (l : List ℚ) : ℚ := l.foldl f seed

/-- Squared Euclidean distance between real-space points. -/
def sqDistQ (a b : Q3) : ℚ := (a.x - b.x) ^ 2 + (a.y - b.y) ^ 2 + (a.z - b.z) ^ 2

/-- Center of a voxel in real space. -/
def voxelCenter (origin : Q3) (vs : ℚ) (v : V3) : Q3 :=
  ⟨origin.x + ((v.x : ℚ) + 1 / 2) * vs, origin.y + ((v.y : ℚ) + 1 / 2) * vs,
    origin.z + ((v.z : ℚ) + 1 / 2) * vs⟩

/-- Is a voxel blocked by some clash point (within its radius of the
voxel center)? -/
def hitsPoint (origin : Q3) (vs : ℚ) (pts : List (Q3 × ℚ)) (v : V3) : Bool :=
  pts.any (fun pr => decide (sqDistQ (voxelCenter origin vs v) pr.1 ≤ pr.2 ^ 2))

/-- Is a voxel interior to the blocked set: blocked voxels on both sides
along each of the three axes?  (Chosen interior-fill rule for the
densification pass, whose exact geometric procedure the spec leaves
open.) -/
def interiorCell (blocked : List V3) (v : V3) : Bool :=
  (blocked.any (fun b => decide (b.y = v.y ∧ b.z = v.z ∧ b.x < v.x))) &&
  (blocked.any (fun b => decide (b.y = v.y ∧ b.z = v.z ∧ v.x < b.x))) &&
  (blocked.any (fun b => decide (b.x = v.x ∧ b.z = v.z ∧ b.y < v.y))) &&
  (blocked.any (fun b => decide (b.x = v.x ∧ b.z = v.z ∧ v.y < b.y))) &&
  (blocked.any (fun b => decide (b.x = v.x ∧ b.y = v.y ∧ b.z < v.z))) &&
  (blocked.any (fun b => decide (b.x = v.x ∧ b.y = v.y ∧ v.z < b.z)))

/-- Modelled from the spec: Obstacle Grid construction (§4.1).  Every
input point blocks all voxels within its radius; extents cover the
bounding box of the points plus the largest radius as margin; `densify`
additionally blocks interior voxels.  Fails only on degenerate input. -/
def buildGrid (pts : List (Q3 × ℚ)) (vs : ℚ) (densify : Bool) :
    Except CfgErr ObstacleGrid :=
  if pts.length < 2 ∨ vs ≤ 0 then .error .degenerate
  else
    let rmax := foldQ max defaultRadius (pts.map Prod.snd)
    let xs := pts.map (fun pr => pr.1.x)
    let ys := pts.map (fun pr => pr.1.y)
    let zs := pts.map (fun pr => pr.1.z)
    let origin : Q3 := ⟨foldQ min 0 xs - rmax, foldQ min 0 ys - rmax, foldQ min 0 zs - rmax⟩
    let dim : V3 :=
      ⟨⌈(foldQ max 0 xs + rmax - origin.x) / vs⌉ + 1,
        ⌈(foldQ max 0 ys + rmax - origin.y) / vs⌉ + 1,
        ⌈(foldQ max 0 zs + rmax - origin.z) / vs⌉ + 1⟩
    let cells := boxCells ⟨⟨0, 0, 0⟩, ⟨dim.x - 1, dim.y - 1, dim.z - 1⟩⟩
    let base := cells.filter (hitsPoint origin vs pts)
    let blocked := if densify then base ++ cells.filter
      (fun v => !hitsPoint origin vs pts v && interiorCell base v) else base
    .ok ⟨origin, vs, dim, blocked⟩

/-- Modelled from the spec: `Xlink.set_clashing_atoms(atoms, densify)`:
select the clash-relevant atoms by name, attach the default radius, and
build the Obstacle Grid once (voxel edge 1 length unit). -/
def set_clashing_atoms (st : Xlink) (atomNames : List String) (densify : Bool) :
    Except CfgErr Xlink :=
  let pts := ((atomselect st.mol .any .any (.names atomNames)).1).map (fun p => (p, defaultRadius))
  (buildGrid pts 1 densify).map (fun g => { st with grid := some g })

/-- Modelled from the spec: `Xlink.setup_local_search(maxdist)`: store
the maximum reach (grid units) of the moving search window. -/
def setup_local_search (st : Xlink) (maxdist : ℕ) : Xlink := { st with maxReach := maxdist }

/-- Configuration of one `distance_matrix` call (§4.5, §6). -/
structure DMConfig where
  method : String
  smooth : Bool
  flexible_sidechain : Bool
  get_path : Bool
deriving DecidableEq

/-- Outcome of one query pair: out of range, no path found, or a path. -/
inductive PairOut where
  | oor
  | nf
  | ok (pts : List V3)
deriving DecidableEq

/-- Modelled from the spec: one pair of the assembler loop (§4.5): derive
the window; if out of range record the out-of-range outcome; otherwise
run the planner; on failure record the path-not-found outcome; on success
smooth the raw voxel path if requested. -/
def pairValue (g : ObstacleGrid) (mr : ℕ) (cfg : DMConfig) (s e : V3) : PairOut :=
  match windowFn g s e mr with
  | none => .oor
  | some w =>
    match searchTop (passable g w cfg.flexible_sidechain s e) (losFree g) s e w with
    | .notFound => .nf
    | .fuelOut => .nf
    | .found p => .ok (if cfg.smooth then smooth (losFree g) p else p)

/-- The planner result for a pair, when the window derivation does not
flag it out of range (`none` means the planner is never invoked). -/
def pairSearch (g : ObstacleGrid) (mr : ℕ) (cfg : DMConfig) (s e : V3) :
    Option SearchResult :=
  (windowFn g s e mr).map
    (fun w => searchTop (passable g w cfg.flexible_sidechain s e) (losFree g) s e w)

/-- Flatten a pair outcome to the recorded matrix entry: the Euclidean
arc length on success, the sentinels -1 / -2 on failure. -/
noncomputable def flattenPO : PairOut → ℝ
  | .oor => -1
  | .nf => -2
  | .ok pts => arcLength pts

/-- Polyline points of a pair outcome (empty on failure). -/
def recPoints : PairOut → List V3
  | .oor => []
  | .nf => []
  | .ok pts => pts

/-- A distance matrix, indexed by positions in the query list. -/
def Mat : Type := ℕ → ℕ → ℝ

/-- Write one value symmetrically at `(i, j)` and `(j, i)`. -/
def fillPair (M : Mat) (i j : ℕ) (v : ℝ) : Mat :=
  fun a b => if (a = i ∧ b = j) ∨ (a = j ∧ b = i) then v else M a b

/-- All unordered pairs `(i, j)` with `i < j < n`, in loop order. -/
def allPairs (n : ℕ) : List (ℕ × ℕ) :=
  (List.range n).flatMap (fun i => ((List.range n).filter (fun j => decide (i < j))).map
    (fun j => (i, j)))

/-- The zero matrix. -/
noncomputable def zeroMat : Mat := fun _ _ => 0

/-- Fill a fresh matrix symmetrically from a per-pair value function. -/
noncomputable def pairsFold (f : ℕ → ℕ → ℝ) (n : ℕ) : Mat :=
  (allPairs n).foldl (fun M pr => fillPair M pr.1 pr.2 (f pr.1 pr.2)) zeroMat

/-- The Obstacle Grid of a driver state (degenerate placeholder when none
has been built; guarded by `validInput`). -/
def gridOf (st : Xlink) : ObstacleGrid := st.grid.getD ⟨⟨0, 0, 0⟩, 1, ⟨0, 0, 0⟩, []⟩

/-- Voxel of the `k`-th query endpoint: the coordinates of the atom whose
index sits at position `k` of the query index list, mapped to its voxel. -/
def queryVox (st : Xlink) (q : List ℕ) (k : ℕ) : V3 :=
  toVoxel (gridOf st) (st.mol.coords.getD (q.getD k 0) defaultQ3)

/-- Outcome of the query pair sitting at positions `(i, j)` of the query
index list. -/
def pairOutAt (st : Xlink) (q : List ℕ) (cfg : DMConfig) (i j : ℕ) : PairOut :=
  pairValue (gridOf st) st.maxReach cfg (queryVox st q i) (queryVox st q j)

/-- The distance matrix assembled for a call (before validity guards). -/
noncomputable def dmMatOf (st : Xlink) (q : List ℕ) (cfg : DMConfig) : Mat :=
  pairsFold (fun i j => flattenPO (pairOutAt st q cfg i j)) q.length

/-- One path record: the pair's positions in the query list, then the
polyline points, so that the record's second component is the point
sequence the notebook reads as `p[1]`. -/
def PathRecord : Type := (ℕ × ℕ) × List V3

/-- The path records of a call, one per evaluated pair, in loop order. -/
def dmPathsOf (st : Xlink) (q : List ℕ) (cfg : DMConfig) : List PathRecord :=
  (allPairs q.length).map (fun pr => ((pr.1, pr.2), recPoints (pairOutAt st q cfg pr.1 pr.2)))

/-- Validity of a `distance_matrix` call: a grid has been built, the
query list is non-empty, and the planner variant is recognized. -/
def validInput (st : Xlink) (q : List ℕ) (cfg : DMConfig) : Bool :=
  st.grid.isSome && !q.isEmpty && decide (cfg.method = "theta")

/-- Modelled from the spec: `Xlink.distance_matrix(indices, method,
smooth, flexible_sidechain, get_path)` (§4.5): configuration errors are
fatal and reported before any matrix is produced; otherwise the
symmetric matrix and (with `get_path`) the per-pair path records. -/
noncomputable def distance_matrix (st : Xlink) (q : List ℕ) (cfg : DMConfig) :
    Except CfgErr (Mat × List PathRecord) :=
  match st.grid with
  | none => .error .noGrid
  | some _ =>
    if q.isEmpty then .error .emptyQuery
    else if cfg.method ≠ "theta" then .error .badMethod
    else .ok (dmMatOf st q cfg, if cfg.get_path then dmPathsOf st q cfg else [])

/-- Window derivation as a state-passing operation: reads the grid,
returns the (unchanged) driver state alongside the result. -/
def windowOp (st : Xlink) (s e : V3) : Option Window × Xlink :=
  (windowFn (gridOf st) s e st.maxReach, st)

/-- Planner invocation as a state-passing operation. -/
def searchOp (st : Xlink) (w : Window) (flex : Bool) (s e : V3) : SearchResult × Xlink :=
  (searchTop (passable (gridOf st) w flex s e) (losFree (gridOf st)) s e w, st)

/-- Smoothing as a state-passing operation. -/
def smoothOp (st : Xlink) (p : List V3) : List V3 × Xlink :=
  (smooth (losFree (gridOf st)) p, st)

/-- Full matrix assembly as a state-passing operation. -/
noncomputable def distance_matrixOp (st : Xlink) (q : List ℕ) (cfg : DMConfig) :
    Except CfgErr (Mat × List PathRecord) × Xlink :=
  (distance_matrix st q cfg, st)

/-!
Auxiliary notions used by the statements: last element with default,
line-of-sight chains along a polyline, and reachability through passable
voxels by 26-connected steps (the graph the planner explores).
-/

/-- Last element of a polyline, with default. -/
def lastD (l : List V3) (d : V3) : V3 := l.getLastD d

/-- Every consecutive segment of the polyline passes the line-of-sight
test (this is what collision-freedom of a polyline segment means at the
voxel level). -/
def SegsLOS (los : V3 → V3 → Bool) (l : List V3) : Prop :=
  List.Chain' (fun a b => los a b = true) l

/-- Reachability through passable voxels by 26-connected steps. -/
inductive Reach (pass : V3 → Bool) : V3 → V3 → Prop where
  | refl (a : V3) (ha : pass a = true) : Reach pass a a
  | step (a b c : V3) (h : Reach pass a b) (hadj : adjacent b c = true)
      (hc : pass c = true) : Reach pass a c

/-- Reachability through passable voxels avoiding a forbidden set. -/
inductive ReachA (pass : V3 → Bool) (avoid : V3 → Prop) : V3 → V3 → Prop where
  | refl (a : V3) (ha : pass a = true) (hv : ¬ avoid a) : ReachA pass avoid a a
  | step (a b c : V3) (h : ReachA pass avoid a b) (hadj : adjacent b c = true)
      (hc : pass c = true) (hv : ¬ avoid c) : ReachA pass avoid a c

/-- Positions of a closed-node list. -/
def posList (closed : List Node) : List V3 := closed.map Node.pos

/-- Structural invariant of the closed set: the first node ever closed is
the self-parented start node; every later node is fresh, has its parent
among the earlier-closed voxels, and passed the line-of-sight check
linking it to its parent (by adjacency or by re-parenting). -/
inductive ClosedOK (los : V3 → V3 → Bool) (s : V3) : List Node → Prop where
  | nil : ClosedOK los s []
  | base (gc : ℕ) : ClosedOK los s [⟨s, s, gc⟩]
  | cons (n : Node) (rest : List Node) (h : ClosedOK los s rest) (hne : rest ≠ [])
      (hpar : n.parent ∈ posList rest) (hfresh : n.pos ∉ posList rest)
      (hlos : los n.parent n.pos = true) : ClosedOK los s (n :: rest)

/-- Number of passable window voxels not yet closed (used as part of the
termination measure of the best-first loop). -/
def unclosedCount (w : Window) (pass : V3 → Bool) (closed : List Node) : ℕ :=
  ((boxCells w).filter (fun v => pass v && !isClosed closed v)).length

/-- Termination measure of the best-first loop. -/
def searchMeasure (w : Window) (pass : V3 → Bool) (opn closed : List Node) : ℕ :=
  opn.length + 27 * unclosedCount w pass closed

/-!
Concrete fixtures used by the closed witnesses of the theorems below: a
small molecule, an obstacle grid with a single blocked voxel, and a
driver state ready for a `distance_matrix` call.
-/

/-- A window covers a query pair: the axis-aligned box of the two
endpoints lies inside the window (so neither endpoint, nor any voxel of
the straight walk between them, is hidden). -/
def windowCovers (w : Window) (s e : V3) : Prop :=
  w.lo.x ≤ min s.x e.x ∧ max s.x e.x ≤ w.hi.x ∧
  w.lo.y ≤ min s.y e.y ∧ max s.y e.y ≤ w.hi.y ∧
  w.lo.z ≤ min s.z e.z ∧ max s.z e.z ≤ w.hi.z

/-- One half, as an explicit rational literal. -/
def qHalf : ℚ := ⟨1, 2, by decide, by decide⟩

/-- Three halves, as an explicit rational literal. -/
def q32 : ℚ := ⟨3, 2, by decide, by decide⟩

/-- Nine halves, as an explicit rational literal. -/
def q92 : ℚ := ⟨9, 2, by decide, by decide⟩

/-- Fixture molecule: four atoms on a small grid. -/
def exMol : Molecule :=
  ⟨[⟨"A", "LYS", "NZ"⟩, ⟨"A", "LYS", "NZ"⟩, ⟨"A", "LYS", "NZ"⟩, ⟨"A", "LYS", "NZ"⟩],
    [⟨qHalf, qHalf, qHalf⟩, ⟨q32, qHalf, qHalf⟩, ⟨q32, q32, q32⟩,
      ⟨q92, qHalf, qHalf⟩]⟩

/-- Fixture grid: unit voxels, 5 × 5 × 5, one blocked voxel. -/
def exGrid : ObstacleGrid := ⟨⟨0, 0, 0⟩, 1, ⟨5, 5, 5⟩, [⟨1, 1, 1⟩]⟩

/-- Fixture driver state with maximum reach 2 grid units. -/
def exXlink : Xlink := ⟨exMol, some exGrid, 2⟩

/-- Fixture configuration: lazy Theta* variant, smoothing on, flexible
side chains off, path records requested. -/
def exCfg : DMConfig := ⟨"theta", true, false, true⟩

/-- Fixture window for the planner-level witnesses. -/
def exW : Window := ⟨⟨0, 0, 0⟩, ⟨1, 1, 1⟩⟩

/-!
Lemmas.  First the basic facts about ranges, boxes, adjacency and the
rounded line walk.
-/

theorem mem_rangeZ {a b t : ℤ} : t ∈ rangeZ a b ↔ a ≤ t ∧ t ≤ b := by
  unfold rangeZ
  simp only [List.mem_map, List.mem_range]
  constructor
  · rintro ⟨k, hk, rfl⟩
    omega
  · intro h
    exact ⟨(t - a).toNat, by omega, by omega⟩

theorem mem_boxCells {w : Window} {v : V3} : v ∈ boxCells w ↔ inWindow w v = true := by
  unfold boxCells inWindow
  simp only [List.mem_flatMap, List.mem_map, mem_rangeZ, decide_eq_true_eq]
  constructor
  · rintro ⟨i, hi, j, hj, k, hk, rfl⟩
    exact ⟨hi.1, hi.2, hj.1, hj.2, hk.1, hk.2⟩
  · intro h
    exact ⟨v.x, ⟨h.1, h.2.1⟩, v.y, ⟨h.2.2.1, h.2.2.2.1⟩, v.z, ⟨h.2.2.2.2.1, h.2.2.2.2.2⟩, rfl⟩

theorem adjacent_iff {a b : V3} : adjacent a b = true ↔ cheb a b ≤ 1 := by
  simp [adjacent]

theorem cheb_self (a : V3) : cheb a a = 0 := by
  simp [cheb]

theorem adjacent_self (a : V3) : adjacent a a = true := by
  simp [adjacent, cheb]

theorem abs_x_le_cheb (a b : V3) : |a.x - b.x| ≤ cheb a b := le_max_left _ _

theorem abs_y_le_cheb (a b : V3) : |a.y - b.y| ≤ cheb a b :=
  le_trans (le_max_left _ _) (le_max_right _ _)

theorem abs_z_le_cheb (a b : V3) : |a.z - b.z| ≤ cheb a b :=
  le_trans (le_max_right _ _) (le_max_right _ _)

theorem cheb_nonneg (a b : V3) : 0 ≤ cheb a b :=
  le_trans (abs_nonneg _) (abs_x_le_cheb a b)

theorem cheb_eq_zero {a b : V3} (h : cheb a b = 0) : a = b := by
  have hx := sub_eq_zero.mp (abs_eq_zero.mp
    (le_antisymm (h ▸ abs_x_le_cheb a b) (abs_nonneg _)))
  have hy := sub_eq_zero.mp (abs_eq_zero.mp
    (le_antisymm (h ▸ abs_y_le_cheb a b) (abs_nonneg _)))
  have hz := sub_eq_zero.mp (abs_eq_zero.mp
    (le_antisymm (h ▸ abs_z_le_cheb a b) (abs_nonneg _)))
  rcases a with ⟨ax, ay, az⟩
  rcases b with ⟨bx, by2, bz⟩
  simp only [V3.mk.injEq]
  exact ⟨hx, hy, hz⟩

theorem rdiv_le_rdiv {m m2 d : ℤ} (hd : 0 < d) (h : m ≤ m2) : rdiv m d ≤ rdiv m2 d :=
  Int.ediv_le_ediv (by omega) (by omega)

theorem rdiv_add_den {m d : ℤ} (hd : 0 < d) : rdiv (m + d) d = rdiv m d + 1 := by
  unfold rdiv
  have h2 : (2 : ℤ) * (m + d) + d = (2 * m + d) + 1 * (2 * d) := by ring
  rw [h2, Int.add_mul_ediv_right _ _ (by omega : (2 : ℤ) * d ≠ 0)]

theorem rdiv_mul_self {a d : ℤ} (hd : 0 < d) : rdiv (a * d) d = a := by
  unfold rdiv
  have h2 : (2 : ℤ) * (a * d) + d = d + a * (2 * d) := by ring
  rw [h2, Int.add_mul_ediv_right _ _ (by omega : (2 : ℤ) * d ≠ 0),
    Int.ediv_eq_zero_of_lt (by omega) (by omega), zero_add]

theorem rdiv_diff_le {m m2 d : ℤ} (hd : 0 < d) (h : |m2 - m| ≤ d) :
    |rdiv m2 d - rdiv m d| ≤ 1 := by
  rcases abs_le.mp h with ⟨h1, h2⟩
  have hu : rdiv m2 d ≤ rdiv m d + 1 := by
    have hle := rdiv_le_rdiv hd (show m2 ≤ m + d by omega)
    rwa [rdiv_add_den hd] at hle
  have hl : rdiv m d ≤ rdiv m2 d + 1 := by
    have hle := rdiv_le_rdiv hd (show m ≤ m2 + d by omega)
    rwa [rdiv_add_den hd] at hle
  rw [abs_le]
  omega

theorem lerp1_zero {a b K : ℤ} (hK : 0 < K) : lerp1 a b 0 K = a := by
  unfold lerp1
  have h : a * (K - 0) + b * 0 = a * K := by ring
  rw [h, rdiv_mul_self hK]

theorem lerp1_last {a b K : ℤ} (hK : 0 < K) : lerp1 a b K K = b := by
  unfold lerp1
  have h : a * (K - K) + b * K = b * K := by ring
  rw [h, rdiv_mul_self hK]

theorem lerp1_step {a b k K : ℤ} (hK : 0 < K) (h : |b - a| ≤ K) :
    |lerp1 a b (k + 1) K - lerp1 a b k K| ≤ 1 := by
  unfold lerp1
  apply rdiv_diff_le hK
  have h2 : a * (K - (k + 1)) + b * (k + 1) - (a * (K - k) + b * k) = b - a := by ring
  rw [h2]
  exact h

theorem lerp1_bounds {a b k K : ℤ} (hK : 0 < K) (hk0 : 0 ≤ k) (hkK : k ≤ K) :
    min a b ≤ lerp1 a b k K ∧ lerp1 a b k K ≤ max a b := by
  constructor
  · have h1 : min a b * K ≤ a * (K - k) + b * k := by
      nlinarith [mul_le_mul_of_nonneg_right (min_le_left a b) (show (0 : ℤ) ≤ K - k by omega),
        mul_le_mul_of_nonneg_right (min_le_right a b) hk0]
    have h2 := rdiv_le_rdiv hK h1
    rwa [rdiv_mul_self hK] at h2
  · have h1 : a * (K - k) + b * k ≤ max a b * K := by
      nlinarith [mul_le_mul_of_nonneg_right (le_max_left a b) (show (0 : ℤ) ≤ K - k by omega),
        mul_le_mul_of_nonneg_right (le_max_right a b) hk0]
    have h2 := rdiv_le_rdiv hK h1
    rwa [rdiv_mul_self hK] at h2

theorem chebN_pos_cast {a b : V3} (h : chebN a b ≠ 0) : 0 < ((chebN a b : ℤ)) := by
  omega

theorem segPoint_zero {a b : V3} {K : ℤ} (hK : 0 < K) : segPoint a b K 0 = a := by
  unfold segPoint
  rw [lerp1_zero hK, lerp1_zero hK, lerp1_zero hK]

theorem segPoint_last {a b : V3} {K : ℤ} (hK : 0 < K) : segPoint a b K K = b := by
  unfold segPoint
  rw [lerp1_last hK, lerp1_last hK, lerp1_last hK]

theorem segPoint_adj {a b : V3} {K k : ℤ} (hK : 0 < K) (hc : cheb a b ≤ K) :
    adjacent (segPoint a b K k) (segPoint a b K (k + 1)) = true := by
  rw [adjacent_iff]
  unfold cheb segPoint
  simp only
  have hx : |lerp1 a.x b.x (k + 1) K - lerp1 a.x b.x k K| ≤ 1 := by
    apply lerp1_step hK
    calc |b.x - a.x| = |a.x - b.x| := abs_sub_comm _ _
    _ ≤ cheb a b := abs_x_le_cheb a b
    _ ≤ K := hc
  have hy : |lerp1 a.y b.y (k + 1) K - lerp1 a.y b.y k K| ≤ 1 := by
    apply lerp1_step hK
    calc |b.y - a.y| = |a.y - b.y| := abs_sub_comm _ _
    _ ≤ cheb a b := abs_y_le_cheb a b
    _ ≤ K := hc
  have hz : |lerp1 a.z b.z (k + 1) K - lerp1 a.z b.z k K| ≤ 1 := by
    apply lerp1_step hK
    calc |b.z - a.z| = |a.z - b.z| := abs_sub_comm _ _
    _ ≤ cheb a b := abs_z_le_cheb a b
    _ ≤ K := hc
  rw [abs_sub_comm] at hx hy hz
  omega

theorem segPoint_bounds {a b : V3} {K k : ℤ} (hK : 0 < K) (hk0 : 0 ≤ k) (hkK : k ≤ K) :
    min a.x b.x ≤ (segPoint a b K k).x ∧ (segPoint a b K k).x ≤ max a.x b.x ∧
    min a.y b.y ≤ (segPoint a b K k).y ∧ (segPoint a b K k).y ≤ max a.y b.y ∧
    min a.z b.z ≤ (segPoint a b K k).z ∧ (segPoint a b K k).z ≤ max a.z b.z := by
  have hx := lerp1_bounds (a := a.x) (b := b.x) hK hk0 hkK
  have hy := lerp1_bounds (a := a.y) (b := b.y) hK hk0 hkK
  have hz := lerp1_bounds (a := a.z) (b := b.z) hK hk0 hkK
  exact ⟨hx.1, hx.2, hy.1, hy.2, hz.1, hz.2⟩

theorem cast_chebN (a b : V3) : ((chebN a b : ℕ) : ℤ) = cheb a b := by
  unfold chebN
  exact Int.toNat_of_nonneg (cheb_nonneg a b)

theorem chebN_eq_zero_iff {a b : V3} : chebN a b = 0 ↔ a = b := by
  constructor
  · intro h
    apply cheb_eq_zero
    have := cast_chebN a b
    rw [h] at this
    omega
  · intro h
    subst h
    unfold chebN
    rw [cheb_self]
    rfl

theorem windowFn_covers {g : ObstacleGrid} {s e : V3} {mr : ℕ} {w : Window}
    (h : windowFn g s e mr = some w) : windowCovers w s e := by
  unfold windowFn at h
  split at h
  · exact absurd h (by simp)
  · simp only [Option.some.injEq] at h
    subst h
    unfold windowCovers vmin vmax
    exact ⟨min_le_right _ _, le_max_right _ _, min_le_right _ _, le_max_right _ _,
      min_le_right _ _, le_max_right _ _⟩

theorem inWindow_of_bounds {w : Window} {s e v : V3} (hcov : windowCovers w s e)
    (hx : min s.x e.x ≤ v.x ∧ v.x ≤ max s.x e.x)
    (hy : min s.y e.y ≤ v.y ∧ v.y ≤ max s.y e.y)
    (hz : min s.z e.z ≤ v.z ∧ v.z ≤ max s.z e.z) : inWindow w v = true := by
  unfold inWindow
  rcases hcov with ⟨h1, h2, h3, h4, h5, h6⟩
  simp only [decide_eq_true_eq]
  omega

theorem inWindow_start {w : Window} {s e : V3} (hcov : windowCovers w s e) :
    inWindow w s = true := by
  apply inWindow_of_bounds hcov
  · exact ⟨min_le_left _ _, le_max_left _ _⟩
  · exact ⟨min_le_left _ _, le_max_left _ _⟩
  · exact ⟨min_le_left _ _, le_max_left _ _⟩

theorem inWindow_goal {w : Window} {s e : V3} (hcov : windowCovers w s e) :
    inWindow w e = true := by
  apply inWindow_of_bounds hcov
  · exact ⟨min_le_right _ _, le_max_right _ _⟩
  · exact ⟨min_le_right _ _, le_max_right _ _⟩
  · exact ⟨min_le_right _ _, le_max_right _ _⟩

theorem segPoint_inWindow {w : Window} {s e : V3} {k : ℤ} (hcov : windowCovers w s e)
    (hK : chebN s e ≠ 0) (hk0 : 0 ≤ k) (hkK : k ≤ (chebN s e : ℤ)) :
    inWindow w (segPoint s e (chebN s e : ℤ) k) = true := by
  have hKpos : (0 : ℤ) < (chebN s e : ℤ) := by omega
  have hb := segPoint_bounds (a := s) (b := e) hKpos hk0 hkK
  exact inWindow_of_bounds hcov ⟨hb.1, hb.2.1⟩ ⟨hb.2.2.1, hb.2.2.2.1⟩
    ⟨hb.2.2.2.2.1, hb.2.2.2.2.2⟩

theorem segFree_unblocked {g : ObstacleGrid} {a b : V3} (h : segFree g a b = true)
    (hK : chebN a b ≠ 0) {k : ℤ} (hk0 : 0 ≤ k) (hkK : k ≤ (chebN a b : ℤ)) :
    isBlocked g (segPoint a b (chebN a b : ℤ) k) = false := by
  unfold segFree at h
  rw [List.all_eq_true] at h
  have hmem : segPoint a b (chebN a b : ℤ) k ∈ segCells a b := by
    unfold segCells
    simp only [if_neg hK, List.mem_map]
    refine ⟨k.toNat, ?_, ?_⟩
    · rw [List.mem_range]
      omega
    · have : ((k.toNat : ℕ) : ℤ) = k := by omega
      rw [this]
  have h2 := h _ hmem
  simp only [Bool.not_eq_eq_eq_not, Bool.not_true] at h2
  exact h2

theorem segFree_start {g : ObstacleGrid} {a b : V3} (h : segFree g a b = true) :
    isBlocked g a = false := by
  by_cases hK : chebN a b = 0
  · unfold segFree segCells at h
    rw [List.all_eq_true] at h
    have h2 := h a (by simp [if_pos hK])
    simp only [Bool.not_eq_eq_eq_not, Bool.not_true] at h2
    exact h2
  · have hKpos : (0 : ℤ) < (chebN a b : ℤ) := by omega
    have := segFree_unblocked h hK (k := 0) le_rfl (by omega)
    rwa [segPoint_zero hKpos] at this

theorem segFree_goal {g : ObstacleGrid} {a b : V3} (h : segFree g a b = true) :
    isBlocked g b = false := by
  by_cases hK : chebN a b = 0
  · have hab : a = b := chebN_eq_zero_iff.mp hK
    subst hab
    exact segFree_start h
  · have hKpos : (0 : ℤ) < (chebN a b : ℤ) := by omega
    have := segFree_unblocked h hK (k := (chebN a b : ℤ)) (by omega) le_rfl
    rwa [segPoint_last hKpos] at this

theorem losFree_of_adjacent {g : ObstacleGrid} {a b : V3} (h : cheb a b ≤ 1) :
    losFree g a b = true := by
  unfold losFree
  have hK : chebN a b - 1 = 0 := by
    have := cast_chebN a b
    omega
  rw [hK]
  rfl

theorem losFree_refl (g : ObstacleGrid) (a : V3) : losFree g a a = true :=
  losFree_of_adjacent (by rw [cheb_self]; norm_num)

theorem segFree_losFree {g : ObstacleGrid} {a b : V3} (h : segFree g a b = true) :
    losFree g a b = true := by
  by_cases hK : chebN a b = 0
  · unfold losFree
    rw [hK]
    rfl
  · unfold losFree
    rw [List.all_eq_true]
    intro k hk
    rw [List.mem_range] at hk
    have := segFree_unblocked h hK (k := (k : ℤ) + 1) (by omega) (by omega)
    simp only [this, Bool.not_false]

theorem passable_of_free {g : ObstacleGrid} {w : Window} {flex : Bool} {s e v : V3}
    (hw : inWindow w v = true) (hb : isBlocked g v = false) :
    passable g w flex s e v = true := by
  unfold passable
  rw [hw, hb]
  simp

theorem reach_segPoint (pass : V3 → Bool) {s e : V3} (hK : chebN s e ≠ 0)
    (hpass : ∀ j : ℕ, j ≤ chebN s e →
      pass (segPoint s e (chebN s e : ℤ) (j : ℤ)) = true) :
    ∀ k : ℕ, k ≤ chebN s e → Reach pass s (segPoint s e (chebN s e : ℤ) (k : ℤ)) := by
  have hKpos : (0 : ℤ) < (chebN s e : ℤ) := by omega
  intro k
  induction k with
  | zero =>
    intro _
    rw [Nat.cast_zero, segPoint_zero hKpos]
    have h0 := hpass 0 (by omega)
    rw [Nat.cast_zero, segPoint_zero hKpos] at h0
    exact .refl s h0
  | succ k ih =>
    intro hk
    have hadj : adjacent (segPoint s e (chebN s e : ℤ) (k : ℤ))
        (segPoint s e (chebN s e : ℤ) ((k : ℤ) + 1)) = true := by
      apply segPoint_adj hKpos
      rw [← cast_chebN]
    have hcast : (((k + 1 : ℕ)) : ℤ) = (k : ℤ) + 1 := by omega
    rw [hcast]
    exact .step _ _ _ (ih (by omega)) hadj (by rw [← hcast]; exact hpass (k + 1) hk)

theorem reach_of_segFree {g : ObstacleGrid} {w : Window} {flex : Bool} {s e : V3}
    (hcov : windowCovers w s e) (hfree : segFree g s e = true) :
    Reach (passable g w flex s e) s e := by
  by_cases hK : chebN s e = 0
  · have hab : s = e := chebN_eq_zero_iff.mp hK
    subst hab
    exact .refl s (passable_of_free (inWindow_start hcov) (segFree_start hfree))
  · have hKpos : (0 : ℤ) < (chebN s e : ℤ) := by omega
    have hall := reach_segPoint (passable g w flex s e) hK ?hp (chebN s e) le_rfl
    case hp =>
      intro j hj
      exact passable_of_free (segPoint_inWindow hcov hK (by omega) (by omega))
        (segFree_unblocked hfree hK (by omega) (by omega))
    rwa [segPoint_last hKpos] at hall

/-!
Arc length lemmas: nonnegativity, the splitting identity along a kept
point, and the triangle bound from an endpoint to the last point.
-/

theorem segLen_self (a : V3) : segLen a a = 0 := dist_self _

theorem segLen_nonneg (a b : V3) : 0 ≤ segLen a b := dist_nonneg

theorem segLen_triangle (a b c : V3) : segLen a c ≤ segLen a b + segLen b c :=
  dist_triangle _ _ _

theorem arcLength_nil : arcLength [] = 0 := rfl

theorem arcLength_single (a : V3) : arcLength [a] = 0 := rfl

theorem arcLength_cons_cons (a b : V3) (l : List V3) :
    arcLength (a :: b :: l) = segLen a b + arcLength (b :: l) := rfl

theorem arcLength_nonneg (l : List V3) : 0 ≤ arcLength l := by
  induction l with
  | nil => exact le_of_eq arcLength_nil.symm
  | cons a t ih =>
    cases t with
    | nil => exact le_of_eq (arcLength_single a).symm
    | cons b t2 =>
      rw [arcLength_cons_cons]
      exact add_nonneg (segLen_nonneg a b) ih

theorem segLen_le_arcLength (l : List V3) (a : V3) :
    segLen a (l.getLastD a) ≤ arcLength (a :: l) := by
  induction l generalizing a with
  | nil =>
    rw [List.getLastD, segLen_self, arcLength_single]
  | cons b t ih =>
    rw [List.getLastD_cons]
    calc segLen a (t.getLastD b) ≤ segLen a b + segLen b (t.getLastD b) :=
      segLen_triangle a b _
    _ ≤ segLen a b + arcLength (b :: t) := add_le_add_left (ih b) _
    _ = arcLength (a :: b :: t) := (arcLength_cons_cons a b t).symm

theorem arcLength_append_cons (xs : List V3) (b : V3) (ys : List V3) :
    arcLength (xs ++ b :: ys) = arcLength (xs ++ [b]) + arcLength (b :: ys) := by
  induction xs with
  | nil =>
    simp only [List.nil_append, arcLength_single]
    rw [zero_add]
  | cons a xs ih =>
    cases xs with
    | nil =>
      simp only [List.cons_append, List.nil_append]
      rw [arcLength_cons_cons]
      have h1 : arcLength [a, b] = segLen a b + arcLength [b] := arcLength_cons_cons a b []
      rw [h1, arcLength_single]
      ring
    | cons c xs2 =>
      simp only [List.cons_append] at ih ⊢
      rw [arcLength_cons_cons, arcLength_cons_cons, ih]
      ring

/-!
Smoother lemmas: the greedy pass starts at the kept point, never has
more points than its input, never increases arc length, keeps only
line-of-sight segments, and collapses a path with a visible last point
to the two endpoints.
-/

theorem smoothLoop_nil (los : V3 → V3 → Bool) (fuel : ℕ) (a : V3) :
    smoothLoop los fuel a [] = [a] := by
  cases fuel with
  | zero => rfl
  | succ f => rfl

theorem smoothLoop_cons (los : V3 → V3 → Bool) (fuel : ℕ) (a : V3) (l : List V3) :
    ∃ t, smoothLoop los fuel a l = a :: t := by
  cases fuel with
  | zero =>
    cases l with
    | nil => exact ⟨[], rfl⟩
    | cons c t => exact ⟨c :: t, rfl⟩
  | succ f =>
    cases l with
    | nil => exact ⟨[], rfl⟩
    | cons c t => exact ⟨_, rfl⟩

theorem bestJump_lt {los : V3 → V3 → Bool} {a : V3} {l : List V3} (h : l ≠ []) :
    bestJump los a l < l.length := by
  unfold bestJump
  cases hf : ((List.range l.length).reverse).find? (fun j => los a (l.getD j a)) with
  | none =>
    simp only [Option.getD_none]
    cases l with
    | nil => exact absurd rfl h
    | cons c t => simp
  | some j =>
    simp only [Option.getD_some]
    have hm := List.mem_of_find?_eq_some hf
    rw [List.mem_reverse, List.mem_range] at hm
    exact hm

theorem bestJump_los {los : V3 → V3 → Bool} {a : V3} {l : List V3} (hne : l ≠ [])
    (hhead : los a (l.getD 0 a) = true) :
    los a (l.getD (bestJump los a l) a) = true := by
  unfold bestJump
  cases hf : ((List.range l.length).reverse).find? (fun j => los a (l.getD j a)) with
  | none =>
    rw [List.find?_eq_none] at hf
    have h0 : (0 : ℕ) ∈ (List.range l.length).reverse := by
      rw [List.mem_reverse, List.mem_range]
      cases l with
      | nil => exact absurd rfl hne
      | cons c t => simp
    exact absurd hhead (by simpa using hf 0 h0)
  | some j =>
    simp only [Option.getD_some]
    have hp := List.find?_some hf
    simpa using hp

theorem bestJump_last {los : V3 → V3 → Bool} {a : V3} {l : List V3} (hne : l ≠ [])
    (hlast : los a (l.getD (l.length - 1) a) = true) :
    bestJump los a l = l.length - 1 := by
  unfold bestJump
  cases l with
  | nil => exact absurd rfl hne
  | cons c t =>
    have hrev : (List.range (c :: t).length).reverse =
        t.length :: (List.range t.length).reverse := by
      rw [List.length_cons, List.range_succ, List.reverse_append]
      rfl
    rw [hrev]
    have hl : (c :: t).length - 1 = t.length := by simp
    rw [hl] at hlast
    have hfind : List.find? (fun j => los a ((c :: t).getD j a))
        (t.length :: (List.range t.length).reverse) = some t.length :=
      List.find?_cons_of_pos _ hlast
    rw [hfind]
    simp [hl]

theorem getD_last (l : List V3) (d : V3) : l.getD (l.length - 1) d = l.getLastD d := by
  rw [List.getD_eq_getElem?_getD, List.getLastD_eq_getLast?, List.getLast?_eq_getElem?]

theorem smoothLoop_length (los : V3 → V3 → Bool) :
    ∀ (fuel : ℕ) (a : V3) (l : List V3), (smoothLoop los fuel a l).length ≤ l.length + 1 := by
  intro fuel
  induction fuel with
  | zero =>
    intro a l
    cases l with
    | nil => simp [smoothLoop]
    | cons c t => simp [smoothLoop]
  | succ f ih =>
    intro a l
    cases l with
    | nil => simp [smoothLoop]
    | cons c t =>
      simp only [smoothLoop]
      have hrec := ih ((c :: t).getD (bestJump los a (c :: t)) a)
        ((c :: t).drop (bestJump los a (c :: t) + 1))
      rw [List.length_drop] at hrec
      simp only [List.length_cons] at hrec ⊢
      omega

theorem drop_bestJump (los : V3 → V3 → Bool) (a c : V3) (t : List V3) :
    (c :: t).drop (bestJump los a (c :: t)) =
      (c :: t).getD (bestJump los a (c :: t)) a ::
        (c :: t).drop (bestJump los a (c :: t) + 1) := by
  have hjlt : bestJump los a (c :: t) < (c :: t).length := bestJump_lt (by simp)
  rw [List.drop_eq_getElem_cons hjlt]
  congr 1
  rw [List.getD_eq_getElem?_getD, List.getElem?_eq_getElem hjlt]
  rfl

theorem smoothLoop_segsLOS (los : V3 → V3 → Bool) :
    ∀ (fuel : ℕ) (a : V3) (l : List V3), l.length ≤ fuel →
      List.Chain' (fun u v => los u v = true) (a :: l) →
      List.Chain' (fun u v => los u v = true) (smoothLoop los fuel a l) := by
  intro fuel
  induction fuel with
  | zero =>
    intro a l hlen hch
    have hl : l = [] := List.length_eq_zero.mp (Nat.le_zero.mp hlen)
    subst hl
    rw [smoothLoop_nil]
    exact hch
  | succ f ih =>
    intro a l hlen hch
    cases l with
    | nil =>
      rw [smoothLoop_nil]
      exact hch
    | cons c t =>
      simp only [smoothLoop]
      have hlos0 : los a ((c :: t).getD 0 a) = true := by
        simpa using (List.chain'_cons.mp hch).1
      have hjlos := bestJump_los (l := c :: t) (by simp) hlos0
      have hchdrop : List.Chain' (fun u v => los u v = true)
          ((c :: t).drop (bestJump los a (c :: t))) :=
        List.Chain'.drop (List.Chain'.tail hch) _
      rw [drop_bestJump los a c t] at hchdrop
      have hlen2 : ((c :: t).drop (bestJump los a (c :: t) + 1)).length ≤ f := by
        rw [List.length_drop]
        simp only [List.length_cons] at hlen ⊢
        omega
      have hrec := ih ((c :: t).getD (bestJump los a (c :: t)) a)
        ((c :: t).drop (bestJump los a (c :: t) + 1)) hlen2 hchdrop
      rcases smoothLoop_cons los f ((c :: t).getD (bestJump los a (c :: t)) a)
        ((c :: t).drop (bestJump los a (c :: t) + 1)) with ⟨tl, heq⟩
      rw [heq] at hrec ⊢
      exact List.chain'_cons.mpr ⟨hjlos, hrec⟩

theorem smoothLoop_arc (los : V3 → V3 → Bool) :
    ∀ (fuel : ℕ) (a : V3) (l : List V3), l.length ≤ fuel →
      arcLength (smoothLoop los fuel a l) ≤ arcLength (a :: l) := by
  intro fuel
  induction fuel with
  | zero =>
    intro a l hlen
    have hl : l = [] := List.length_eq_zero.mp (Nat.le_zero.mp hlen)
    subst hl
    exact le_of_eq rfl
  | succ f ih =>
    intro a l hlen
    cases l with
    | nil => exact le_of_eq rfl
    | cons c t =>
      simp only [smoothLoop]
      have hlen2 : ((c :: t).drop (bestJump los a (c :: t) + 1)).length ≤ f := by
        rw [List.length_drop]
        simp only [List.length_cons] at hlen ⊢
        omega
      have hrec := ih ((c :: t).getD (bestJump los a (c :: t)) a)
        ((c :: t).drop (bestJump los a (c :: t) + 1)) hlen2
      rcases smoothLoop_cons los f ((c :: t).getD (bestJump los a (c :: t)) a)
        ((c :: t).drop (bestJump los a (c :: t) + 1)) with ⟨tl, heq⟩
      have hsplit : a :: c :: t =
          (a :: (c :: t).take (bestJump los a (c :: t))) ++
            ((c :: t).getD (bestJump los a (c :: t)) a ::
              (c :: t).drop (bestJump los a (c :: t) + 1)) := by
        rw [← drop_bestJump los a c t, List.cons_append, List.take_append_drop]
      have hseg : segLen a ((c :: t).getD (bestJump los a (c :: t)) a) ≤
          arcLength ((a :: (c :: t).take (bestJump los a (c :: t))) ++
            [(c :: t).getD (bestJump los a (c :: t)) a]) := by
        have hgl := segLen_le_arcLength
          ((c :: t).take (bestJump los a (c :: t)) ++
            [(c :: t).getD (bestJump los a (c :: t)) a]) a
        rw [List.getLastD_concat] at hgl
        rw [List.cons_append]
        exact hgl
      calc arcLength (a :: smoothLoop los f ((c :: t).getD (bestJump los a (c :: t)) a)
          ((c :: t).drop (bestJump los a (c :: t) + 1)))
          = segLen a ((c :: t).getD (bestJump los a (c :: t)) a) +
            arcLength (smoothLoop los f ((c :: t).getD (bestJump los a (c :: t)) a)
              ((c :: t).drop (bestJump los a (c :: t) + 1))) := by
            rw [heq, arcLength_cons_cons, ← heq]
      _ ≤ segLen a ((c :: t).getD (bestJump los a (c :: t)) a) +
            arcLength ((c :: t).getD (bestJump los a (c :: t)) a ::
              (c :: t).drop (bestJump los a (c :: t) + 1)) := add_le_add_left hrec _
      _ ≤ arcLength ((a :: (c :: t).take (bestJump los a (c :: t))) ++
              [(c :: t).getD (bestJump los a (c :: t)) a]) +
            arcLength ((c :: t).getD (bestJump los a (c :: t)) a ::
              (c :: t).drop (bestJump los a (c :: t) + 1)) := add_le_add_right hseg _
      _ = arcLength (a :: c :: t) := by
            rw [hsplit]
            exact (arcLength_append_cons _ _ _).symm

theorem smooth_length_le (los : V3 → V3 → Bool) (p : List V3) :
    (smooth los p).length ≤ p.length := by
  cases p with
  | nil => exact le_refl 0
  | cons a l =>
    unfold smooth
    have := smoothLoop_length los l.length a l
    simpa using this

theorem smooth_arc_le (los : V3 → V3 → Bool) (p : List V3) :
    arcLength (smooth los p) ≤ arcLength p := by
  cases p with
  | nil => exact le_refl _
  | cons a l => exact smoothLoop_arc los l.length a l le_rfl

theorem smooth_segsLOS (los : V3 → V3 → Bool) (p : List V3) (h : SegsLOS los p) :
    SegsLOS los (smooth los p) := by
  cases p with
  | nil => exact List.chain'_nil
  | cons a l => exact smoothLoop_segsLOS los l.length a l le_rfl h

theorem smooth_ne_nil {los : V3 → V3 → Bool} {p : List V3} (h : p ≠ []) :
    smooth los p ≠ [] := by
  cases p with
  | nil => exact absurd rfl h
  | cons a l =>
    rcases smoothLoop_cons los l.length a l with ⟨t, heq⟩
    show smoothLoop los l.length a l ≠ []
    rw [heq]
    exact List.cons_ne_nil a t

theorem smooth_straight {los : V3 → V3 → Bool} {s g2 : V3} {l : List V3} (hne : l ≠ [])
    (hlast : l.getLastD s = g2) (hlos : los s g2 = true) :
    smooth los (s :: l) = [s, g2] := by
  unfold smooth
  cases l with
  | nil => exact absurd rfl hne
  | cons c t =>
    have hbj : bestJump los s (c :: t) = t.length := by
      have hb := @bestJump_last los s (c :: t) (by simp)
        (by rw [getD_last, hlast]; exact hlos)
      simpa using hb
    have h2 : (c :: t).getD t.length s = g2 := by
      have h3 := getD_last (c :: t) s
      simp only [List.length_cons, Nat.add_sub_cancel] at h3
      rw [h3, hlast]
    show s :: smoothLoop los t.length ((c :: t).getD (bestJump los s (c :: t)) s)
      ((c :: t).drop (bestJump los s (c :: t) + 1)) = [s, g2]
    rw [hbj, h2, List.drop_succ_cons, List.drop_length, smoothLoop_nil]

/-!
Open-set lemmas: popping returns `none` exactly on the empty open set,
and otherwise removes one occurrence of a member (a permutation fact).
-/

theorem popMin_none {goal : V3} : ∀ {l : List Node}, popMin goal l = none → l = [] := by
  intro l h
  cases l with
  | nil => rfl
  | cons n rest =>
    exfalso
    unfold popMin at h
    cases hr : popMin goal rest with
    | none =>
      rw [hr] at h
      exact Option.noConfusion h
    | some pr =>
      rcases pr with ⟨m, rest2⟩
      rw [hr] at h
      change (if nodeF goal n ≤ nodeF goal m then some (n, rest)
        else some (m, n :: rest2)) = none at h
      by_cases hc : nodeF goal n ≤ nodeF goal m
      · rw [if_pos hc] at h
        exact Option.noConfusion h
      · rw [if_neg hc] at h
        exact Option.noConfusion h

theorem popMin_perm {goal : V3} : ∀ {l : List Node} {n : Node} {rest : List Node},
    popMin goal l = some (n, rest) → l.Perm (n :: rest) := by
  intro l
  induction l with
  | nil =>
    intro n rest h
    exact Option.noConfusion h
  | cons a t ih =>
    intro n rest h
    unfold popMin at h
    cases hr : popMin goal t with
    | none =>
      rw [hr] at h
      have ht : t = [] := popMin_none hr
      subst ht
      simp only [Option.some.injEq, Prod.mk.injEq] at h
      rcases h with ⟨h1, h2⟩
      subst h1
      subst h2
      exact List.Perm.refl _
    | some pr =>
      rcases pr with ⟨m, rest2⟩
      rw [hr] at h
      change (if nodeF goal a ≤ nodeF goal m then some (a, t)
        else some (m, a :: rest2)) = some (n, rest) at h
      by_cases hc : nodeF goal a ≤ nodeF goal m
      · rw [if_pos hc] at h
        simp only [Option.some.injEq, Prod.mk.injEq] at h
        rcases h with ⟨h1, h2⟩
        subst h1
        subst h2
        exact List.Perm.refl _
      · rw [if_neg hc] at h
        simp only [Option.some.injEq, Prod.mk.injEq] at h
        rcases h with ⟨h1, h2⟩
        subst h1
        subst h2
        exact ((ih hr).cons a).trans (List.Perm.swap m a rest2)

theorem popMin_mem {goal : V3} {l : List Node} {n : Node} {rest : List Node}
    (h : popMin goal l = some (n, rest)) : n ∈ l :=
  (popMin_perm h).symm.subset (List.mem_cons_self n rest)

/-!
Closed-set lemmas: lookup behavior, the structural invariant `ClosedOK`
of the closed list, and correctness of path reconstruction: the rebuilt
path runs from the start voxel to the requested voxel and all its
consecutive segments passed the planner's line-of-sight/adjacency check.
-/

theorem posList_cons (n : Node) (closed : List Node) :
    posList (n :: closed) = n.pos :: posList closed := rfl

theorem mem_posList {closed : List Node} {v : V3} :
    v ∈ posList closed ↔ ∃ n ∈ closed, n.pos = v := by
  unfold posList
  simp [List.mem_map]

theorem lookupNode_mem {closed : List Node} {v : V3} {n : Node}
    (h : lookupNode closed v = some n) : n ∈ closed ∧ n.pos = v := by
  unfold lookupNode at h
  refine ⟨List.mem_of_find?_eq_some h, ?_⟩
  have hp := List.find?_some h
  simpa using hp

theorem lookupNode_none {closed : List Node} {v : V3}
    (h : lookupNode closed v = none) : v ∉ posList closed := by
  unfold lookupNode at h
  rw [List.find?_eq_none] at h
  intro hv
  rcases mem_posList.mp hv with ⟨n, hn, hpos⟩
  exact h n hn (by simp [hpos])

theorem isClosed_false_not_mem {closed : List Node} {v : V3}
    (h : isClosed closed v = false) : v ∉ posList closed := by
  unfold isClosed at h
  cases hl : lookupNode closed v with
  | none => exact lookupNode_none hl
  | some n =>
    rw [hl] at h
    exact absurd h (by simp)

theorem isClosed_of_mem {closed : List Node} {v : V3} (h : v ∈ posList closed) :
    isClosed closed v = true := by
  by_cases hc : isClosed closed v = true
  · exact hc
  · exact absurd h (isClosed_false_not_mem (Bool.not_eq_true _ ▸ hc))

theorem closedOK_parent_mem {los : V3 → V3 → Bool} {s : V3} {closed : List Node}
    (h : ClosedOK los s closed) : ∀ n ∈ closed, n.parent ∈ posList closed := by
  induction h with
  | nil =>
    intro n hn
    exact absurd hn (List.not_mem_nil n)
  | base gc =>
    intro n hn
    rw [List.mem_singleton] at hn
    subst hn
    simp [posList]
  | cons m rest hrest hne hpar hfresh hlos ih =>
    intro n hn
    rcases List.mem_cons.mp hn with heq | hn2
    · subst heq
      rw [posList_cons]
      exact List.mem_cons_of_mem _ hpar
    · rw [posList_cons]
      exact List.mem_cons_of_mem _ (ih n hn2)

theorem closedOK_start_mem {los : V3 → V3 → Bool} {s : V3} {closed : List Node}
    (h : ClosedOK los s closed) (hne : closed ≠ []) : s ∈ posList closed := by
  induction h with
  | nil => exact absurd rfl hne
  | base gc => simp [posList]
  | cons m rest hrest hne2 hpar hfresh hlos ih =>
    rw [posList_cons]
    exact List.mem_cons_of_mem _ (ih hne2)

theorem closedOK_nodup {los : V3 → V3 → Bool} {s : V3} {closed : List Node}
    (h : ClosedOK los s closed) : (posList closed).Nodup := by
  induction h with
  | nil => exact List.nodup_nil
  | base gc => exact List.nodup_singleton _
  | cons m rest hrest hne hpar hfresh hlos ih =>
    rw [posList_cons]
    exact List.nodup_cons.mpr ⟨hfresh, ih⟩

theorem closedOK_lookup {los : V3 → V3 → Bool} {s : V3} {closed : List Node}
    (h : ClosedOK los s closed) : ∀ {n : Node}, n ∈ closed →
      lookupNode closed n.pos = some n := by
  induction h with
  | nil =>
    intro n hn
    exact absurd hn (List.not_mem_nil n)
  | base gc =>
    intro n hn
    rw [List.mem_singleton] at hn
    subst hn
    unfold lookupNode
    rw [List.find?_cons_of_pos _ (by simp)]
  | cons m rest hrest hne hpar hfresh hlos ih =>
    intro n hn
    rcases List.mem_cons.mp hn with heq | hn2
    · subst heq
      unfold lookupNode
      rw [List.find?_cons_of_pos _ (by simp)]
    · have hne2 : ¬ (m.pos = n.pos) := by
        intro hcontra
        apply hfresh
        rw [hcontra]
        exact mem_posList.mpr ⟨n, hn2, rfl⟩
      unfold lookupNode
      rw [List.find?_cons_of_neg _ (by simp [hne2])]
      exact ih hn2

theorem closedOK_split {los : V3 → V3 → Bool} {s : V3} {closed : List Node}
    (h : ClosedOK los s closed) : ∀ {pre : List Node} {n : Node} {post : List Node},
      closed = pre ++ n :: post →
      (n.parent = n.pos ∧ n.pos = s ∧ post = []) ∨
        (n.parent ∈ posList post ∧ n.parent ≠ n.pos ∧ los n.parent n.pos = true) := by
  induction h with
  | nil =>
    intro pre n post heq
    exact absurd heq.symm (List.append_ne_nil_of_right_ne_nil pre (List.cons_ne_nil n post))
  | base gc =>
    intro pre n post heq
    cases pre with
    | nil =>
      simp only [List.nil_append, List.cons.injEq] at heq
      rcases heq with ⟨h1, h2⟩
      left
      rw [← h1, h2]
      exact ⟨rfl, rfl, rfl⟩
    | cons x pre2 =>
      simp only [List.cons_append, List.cons.injEq] at heq
      exact absurd heq.2.symm (List.append_ne_nil_of_right_ne_nil pre2 (List.cons_ne_nil n post))
  | cons m rest hrest hne hpar hfresh hlos ih =>
    intro pre n post heq
    cases pre with
    | nil =>
      simp only [List.nil_append, List.cons.injEq] at heq
      rcases heq with ⟨h1, h2⟩
      subst h1
      subst h2
      right
      refine ⟨hpar, ?_, hlos⟩
      intro hcontra
      exact hfresh (hcontra ▸ hpar)
    | cons x pre2 =>
      simp only [List.cons_append, List.cons.injEq] at heq
      exact ih heq.2

theorem getLast?_of_getLastD {l : List V3} {d v : V3} (hne : l ≠ [])
    (h : l.getLastD d = v) : l.getLast? = some v := by
  cases hl : l.getLast? with
  | none => exact absurd (List.getLast?_eq_none_iff.mp hl) hne
  | some x =>
    rw [List.getLastD_eq_getLast?, hl] at h
    simp only [Option.getD_some] at h
    rw [h]

theorem reconstruct_succ (closed : List Node) (f : ℕ) (v : V3) :
    reconstruct closed (f + 1) v =
      match lookupNode closed v with
      | none => [v]
      | some n => if n.parent = v then [v] else reconstruct closed f n.parent ++ [v] := rfl

theorem reconstruct_ok {los : V3 → V3 → Bool} {s : V3} {closed : List Node}
    (hC : ClosedOK los s closed) :
    ∀ (fuel : ℕ) (suf : List Node) (v : V3), suf.IsSuffix closed → v ∈ posList suf →
      suf.length ≤ fuel →
      ∃ t, reconstruct closed fuel v = s :: t ∧
        (reconstruct closed fuel v).getLastD s = v ∧
        SegsLOS los (reconstruct closed fuel v) := by
  intro fuel
  induction fuel with
  | zero =>
    intro suf v hsuf hv hlen
    rw [List.length_eq_zero.mp (Nat.le_zero.mp hlen)] at hv
    exact absurd hv (List.not_mem_nil v)
  | succ f ih =>
    intro suf v hsuf hv hlen
    rcases mem_posList.mp hv with ⟨n, hnsuf, hnpos⟩
    have hnclosed : n ∈ closed := hsuf.subset hnsuf
    have hlook : lookupNode closed v = some n := hnpos ▸ closedOK_lookup hC hnclosed
    rcases List.append_of_mem hnsuf with ⟨pre3, post3, hsufeq⟩
    rcases hsuf with ⟨pre2, hpre2⟩
    have heqsplit : closed = (pre2 ++ pre3) ++ n :: post3 := by
      rw [← hpre2, hsufeq, List.append_assoc]
    have hsplit := closedOK_split hC heqsplit
    show ∃ t, reconstruct closed (f + 1) v = s :: t ∧ _ ∧ _
    rcases hsplit with ⟨hps, hpos_s, hpost⟩ | ⟨hparent, hpne, hlos⟩
    · have hself : n.parent = v := by rw [hps, hnpos]
      have hres : reconstruct closed (f + 1) v = [v] := by
        rw [reconstruct_succ, hlook]
        change (if n.parent = v then [v] else reconstruct closed f n.parent ++ [v]) = [v]
        rw [if_pos hself]
      have hvs : v = s := by rw [← hnpos, hpos_s]
      subst hvs
      exact ⟨[], hres, by rw [hres]; rfl, by rw [hres]; exact List.chain'_singleton v⟩
    · have hself : ¬ (n.parent = v) := by rw [← hnpos]; exact hpne
      have hres : reconstruct closed (f + 1) v =
          reconstruct closed f n.parent ++ [v] := by
        rw [reconstruct_succ, hlook]
        change (if n.parent = v then [v] else reconstruct closed f n.parent ++ [v]) = _
        rw [if_neg hself]
      have hpost_suf : post3.IsSuffix closed := by
        refine ⟨(pre2 ++ pre3) ++ [n], ?_⟩
        rw [← hpre2, hsufeq]
        simp [List.append_assoc]
      have hpost_len : post3.length ≤ f := by
        have : suf.length = pre3.length + (post3.length + 1) := by
          rw [hsufeq, List.length_append, List.length_cons]
        omega
      rcases ih post3 n.parent hpost_suf hparent hpost_len with ⟨t, hrec, hlast, hchain⟩
      refine ⟨t ++ [v], ?_, ?_, ?_⟩
      · rw [hres, hrec, List.cons_append]
      · rw [hres]
        rw [List.getLastD_concat]
      · rw [hres]
        have hlast? : (reconstruct closed f n.parent).getLast? = some n.parent :=
          getLast?_of_getLastD (by rw [hrec]; exact List.cons_ne_nil _ _) hlast
        unfold SegsLOS
        rw [List.chain'_append]
        refine ⟨hchain, List.chain'_singleton v, ?_⟩
        intro x hx y hy
        rw [hlast?] at hx
        simp only [Option.mem_def, Option.some.injEq] at hx
        simp only [List.head?_cons, Option.mem_def, Option.some.injEq] at hy
        subst hx
        subst hy
        rw [← hnpos]
        exact hlos

/-!
Planner step lemmas: re-parenting keeps the voxel and the line-of-sight
link, expansion produces passable unclosed 26-neighbors, and the loop
body unfolds.
-/

theorem reparent_pos (los : V3 → V3 → Bool) (closed : List Node) (n : Node) :
    (reparent los closed n).pos = n.pos := by
  cases h1 : lookupNode closed n.parent with
  | none => simp only [reparent, h1]
  | some pn =>
    cases h2 : lookupNode closed pn.parent with
    | none => simp only [reparent, h1, h2]
    | some ppn =>
      by_cases hl : los ppn.pos n.pos = true
      · simp only [reparent, h1, h2, if_pos hl]
      · simp only [reparent, h1, h2, if_neg hl]

theorem reparent_los {los : V3 → V3 → Bool} {closed : List Node} {n : Node}
    (h : los n.parent n.pos = true) :
    los (reparent los closed n).parent (reparent los closed n).pos = true := by
  cases h1 : lookupNode closed n.parent with
  | none => simp only [reparent, h1]; exact h
  | some pn =>
    cases h2 : lookupNode closed pn.parent with
    | none => simp only [reparent, h1, h2]; exact h
    | some ppn =>
      by_cases hl : los ppn.pos n.pos = true
      · simp only [reparent, h1, h2, if_pos hl]
        exact hl
      · simp only [reparent, h1, h2, if_neg hl]
        exact h

theorem reparent_parent_mem {los : V3 → V3 → Bool} {s : V3} {closed : List Node} {n : Node}
    (hC : ClosedOK los s closed) (hne : closed ≠ [])
    (h : n.parent ∈ posList closed ∨ n.parent = s) :
    (reparent los closed n).parent ∈ posList closed := by
  have hbase : n.parent ∈ posList closed := by
    rcases h with h | h
    · exact h
    · rw [h]
      exact closedOK_start_mem hC hne
  cases h1 : lookupNode closed n.parent with
  | none => simp only [reparent, h1]; exact hbase
  | some pn =>
    cases h2 : lookupNode closed pn.parent with
    | none => simp only [reparent, h1, h2]; exact hbase
    | some ppn =>
      by_cases hl : los ppn.pos n.pos = true
      · simp only [reparent, h1, h2, if_pos hl]
        exact mem_posList.mpr ⟨ppn, (lookupNode_mem h2).1, rfl⟩
      · simp only [reparent, h1, h2, if_neg hl]
        exact hbase

theorem offsets_small : ∀ o ∈ offsets, |o.x| ≤ 1 ∧ |o.y| ≤ 1 ∧ |o.z| ≤ 1 := by decide

theorem nbrs_adjacent {p u : V3} (h : u ∈ nbrs p) : adjacent p u = true := by
  unfold nbrs at h
  rcases List.mem_map.mp h with ⟨o, ho, rfl⟩
  have hs := offsets_small o ho
  rw [adjacent_iff]
  unfold cheb
  simp only
  have e1 : p.x - (p.x + o.x) = -o.x := by ring
  have e2 : p.y - (p.y + o.y) = -o.y := by ring
  have e3 : p.z - (p.z + o.z) = -o.z := by ring
  rw [e1, e2, e3, abs_neg, abs_neg, abs_neg]
  rcases hs with ⟨hx, hy, hz⟩
  omega

theorem mem_expandNbrs {pass : V3 → Bool} {closed : List Node} {p : V3} {gc : ℕ} {m : Node}
    (h : m ∈ expandNbrs pass closed p gc) :
    m.parent = p ∧ pass m.pos = true ∧ isClosed closed m.pos = false ∧
      adjacent p m.pos = true := by
  unfold expandNbrs at h
  rcases List.mem_map.mp h with ⟨u, hu, rfl⟩
  rcases List.mem_filter.mp hu with ⟨hmem, hcond⟩
  rw [Bool.and_eq_true] at hcond
  refine ⟨rfl, hcond.1, ?_, nbrs_adjacent hmem⟩
  have h2 := hcond.2
  simp only [Bool.not_eq_true'] at h2
  exact h2

theorem expandNbrs_length (pass : V3 → Bool) (closed : List Node) (p : V3) (gc : ℕ) :
    (expandNbrs pass closed p gc).length ≤ 26 := by
  unfold expandNbrs
  rw [List.length_map]
  calc ((nbrs p).filter _).length ≤ (nbrs p).length := List.length_filter_le _ _
  _ = offsets.length := List.length_map _ _
  _ = 26 := by decide

theorem loop_succ (los : V3 → V3 → Bool) (pass : V3 → Bool) (goal : V3) (f : ℕ)
    (opn closed : List Node) :
    loop los pass goal (f + 1) opn closed =
      match popMin goal opn with
      | none => .notFound
      | some (n, rest) =>
        if isClosed closed n.pos then loop los pass goal f rest closed
        else
          if n.pos = goal then
            .found (reconstruct (reparent los closed n :: closed)
              (reparent los closed n :: closed).length goal)
          else loop los pass goal f
            (rest ++ expandNbrs pass (reparent los closed n :: closed) n.pos
              (reparent los closed n).gc)
            (reparent los closed n :: closed) := rfl

/-!
Planner soundness: a successful search reaches the goal through passable
voxels, and the returned path runs from the start voxel to the goal with
every consecutive segment line-of-sight checked.
-/

theorem loop_sound {los : V3 → V3 → Bool} {pass : V3 → Bool} {goal s : V3}
    (hAdj : ∀ a b : V3, adjacent a b = true → los a b = true) :
    ∀ (fuel : ℕ) (opn closed : List Node) (p : List V3),
      (∀ n ∈ opn, Reach pass s n.pos) →
      (∀ n ∈ opn, los n.parent n.pos = true) →
      (∀ n ∈ opn, n.parent ∈ posList closed ∨ (n.pos = s ∧ n.parent = s)) →
      ClosedOK los s closed →
      goal ∉ posList closed →
      loop los pass goal fuel opn closed = .found p →
      Reach pass s goal ∧ ∃ t, p = s :: t ∧ p.getLastD s = goal ∧ SegsLOS los p := by
  intro fuel
  induction fuel with
  | zero =>
    intro opn closed p _ _ _ _ _ h
    exact absurd h (by simp [loop])
  | succ f ih =>
    intro opn closed p hReach hLos hPar hC hGoal h
    rw [loop_succ] at h
    cases hpop : popMin goal opn with
    | none =>
      rw [hpop] at h
      exact absurd h (by simp)
    | some pr =>
      rcases pr with ⟨n, rest⟩
      rw [hpop] at h
      change (if isClosed closed n.pos then loop los pass goal f rest closed
        else
          if n.pos = goal then
            SearchResult.found (reconstruct (reparent los closed n :: closed)
              (reparent los closed n :: closed).length goal)
          else loop los pass goal f
            (rest ++ expandNbrs pass (reparent los closed n :: closed) n.pos
              (reparent los closed n).gc)
            (reparent los closed n :: closed)) = .found p at h
      have hmem := popMin_mem hpop
      have hsub : ∀ m ∈ rest, m ∈ opn := fun m hm =>
        (popMin_perm hpop).symm.subset (List.mem_cons_of_mem n hm)
      by_cases hcl : isClosed closed n.pos = true
      · rw [if_pos hcl] at h
        exact ih rest closed p (fun m hm => hReach m (hsub m hm))
          (fun m hm => hLos m (hsub m hm)) (fun m hm => hPar m (hsub m hm)) hC hGoal h
      · have hclF : isClosed closed n.pos = false := Bool.not_eq_true _ ▸ hcl
        rw [if_neg hcl] at h
        have hn2pos : (reparent los closed n).pos = n.pos := reparent_pos los closed n
        have hfresh : n.pos ∉ posList closed := isClosed_false_not_mem hclF
        have hC2 : ClosedOK los s (reparent los closed n :: closed) := by
          by_cases hne : closed = []
          · subst hne
            have hrn : reparent los [] n = n := rfl
            rcases hPar n hmem with hmem2 | ⟨hps, hpp⟩
            · exact absurd hmem2 (List.not_mem_nil _)
            · rw [hrn]
              obtain ⟨np, npp, ng⟩ := n
              change np = s at hps
              change npp = s at hpp
              subst hps
              subst hpp
              exact ClosedOK.base ng
          · refine ClosedOK.cons _ _ hC hne ?_ ?_ ?_
            · apply reparent_parent_mem hC hne
              rcases hPar n hmem with hmem2 | ⟨_, hpp⟩
              · exact Or.inl hmem2
              · exact Or.inr hpp
            · rw [hn2pos]
              exact hfresh
            · exact reparent_los (hLos n hmem)
        by_cases hgoal : n.pos = goal
        · rw [if_pos hgoal] at h
          simp only [SearchResult.found.injEq] at h
          have hgmem : goal ∈ posList (reparent los closed n :: closed) := by
            rw [posList_cons, hn2pos, hgoal]
            exact List.mem_cons_self _ _
          rcases reconstruct_ok hC2 (reparent los closed n :: closed).length
            (reparent los closed n :: closed) goal (List.suffix_refl _) hgmem le_rfl with
            ⟨t, h1, h2, h3⟩
          rw [← h]
          exact ⟨hgoal ▸ hReach n hmem, ⟨t, h1, h2, h3⟩⟩
        · rw [if_neg hgoal] at h
          apply ih (rest ++ expandNbrs pass (reparent los closed n :: closed) n.pos
            (reparent los closed n).gc) (reparent los closed n :: closed) p ?_ ?_ ?_ hC2 ?_ h
          · intro m hm
            rcases List.mem_append.mp hm with hm | hm
            · exact hReach m (hsub m hm)
            · rcases mem_expandNbrs hm with ⟨_, hpassm, _, hadjm⟩
              exact Reach.step s n.pos m.pos (hReach n hmem) hadjm hpassm
          · intro m hm
            rcases List.mem_append.mp hm with hm | hm
            · exact hLos m (hsub m hm)
            · rcases mem_expandNbrs hm with ⟨hparm, _, _, hadjm⟩
              rw [hparm]
              exact hAdj _ _ hadjm
          · intro m hm
            rcases List.mem_append.mp hm with hm | hm
            · rcases hPar m (hsub m hm) with hm2 | hm2
              · exact Or.inl (by rw [posList_cons]; exact List.mem_cons_of_mem _ hm2)
              · exact Or.inr hm2
            · rcases mem_expandNbrs hm with ⟨hparm, _, _, _⟩
              left
              rw [posList_cons, hn2pos, hparm]
              exact List.mem_cons_self _ _
          · rw [posList_cons, hn2pos]
            intro hcontra
            rcases List.mem_cons.mp hcontra with hcontra | hcontra
            · exact hgoal hcontra.symm
            · exact hGoal hcontra

/-!
Completeness prerequisites: reachability-avoiding-a-set lemmas, the
converse neighbor-membership lemma, and the counting lemmas behind the
termination measure of the best-first loop.
-/

theorem reachA_start {pass : V3 → Bool} {A : V3 → Prop} {a b : V3}
    (h : ReachA pass A a b) : pass a = true ∧ ¬ A a := by
  induction h with
  | refl ha hv => exact ⟨ha, hv⟩
  | step b c hab hadj hc hv ih => exact ih

theorem reachA_mono_avoid {pass : V3 → Bool} {A B : V3 → Prop} {a b : V3}
    (himp : ∀ v, B v → A v) (h : ReachA pass A a b) : ReachA pass B a b := by
  induction h with
  | refl ha hv => exact ReachA.refl a ha (fun hb => hv (himp a hb))
  | step b c hab hadj hc hv ih =>
    exact ReachA.step a b c ih hadj hc (fun hb => hv (himp c hb))

theorem reach_reachA {pass : V3 → Bool} {a b : V3} (h : Reach pass a b) :
    ReachA pass (fun v => v ∈ posList ([] : List Node)) a b := by
  induction h with
  | refl ha => exact ReachA.refl a ha (List.not_mem_nil a)
  | step b c hab hadj hc ih => exact ReachA.step a b c ih hadj hc (List.not_mem_nil c)

theorem reachA_extend {pass : V3 → Bool} {A : V3 → Prop} {a b : V3}
    (h : ReachA pass A a b) :
    ∀ p : V3, b ≠ p →
      ReachA pass (fun v => A v ∨ v = p) a b ∨
        ∃ u, adjacent p u = true ∧ ReachA pass (fun v => A v ∨ v = p) u b := by
  induction h with
  | refl ha hv =>
    intro p hbp
    left
    refine ReachA.refl a ha ?_
    intro hor
    rcases hor with hor | hor
    · exact hv hor
    · exact hbp hor
  | step b c hab hadj hc hvc ih =>
    intro p hcp
    by_cases hbp : b = p
    · right
      refine ⟨c, ?_, ReachA.refl c hc ?_⟩
      · rw [← hbp]
        exact hadj
      · intro hor
        rcases hor with hor | hor
        · exact hvc hor
        · exact hcp hor
    · rcases ih p hbp with hl | ⟨u, hu1, hu2⟩
      · left
        refine ReachA.step a b c hl hadj hc ?_
        intro hor
        rcases hor with hor | hor
        · exact hvc hor
        · exact hcp hor
      · right
        refine ⟨u, hu1, ReachA.step u b c hu2 hadj hc ?_⟩
        intro hor
        rcases hor with hor | hor
        · exact hvc hor
        · exact hcp hor

theorem mem_offsets {ox oy oz : ℤ} (hx : |ox| ≤ 1) (hy : |oy| ≤ 1) (hz : |oz| ≤ 1)
    (hne : (⟨ox, oy, oz⟩ : V3) ≠ ⟨0, 0, 0⟩) : (⟨ox, oy, oz⟩ : V3) ∈ offsets := by
  rcases abs_le.mp hx with ⟨hx1, hx2⟩
  rcases abs_le.mp hy with ⟨hy1, hy2⟩
  rcases abs_le.mp hz with ⟨hz1, hz2⟩
  unfold offsets
  rw [List.mem_filter]
  constructor
  · simp only [List.mem_flatMap, List.mem_map, List.mem_range]
    refine ⟨(ox + 1).toNat, by omega, (oy + 1).toNat, by omega,
      (oz + 1).toNat, by omega, ?_⟩
    simp only [V3.mk.injEq]
    refine ⟨by omega, by omega, by omega⟩
  · simp [hne]

theorem mem_nbrs_of_adjacent {p u : V3} (hadj : adjacent p u = true) (hne : u ≠ p) :
    u ∈ nbrs p := by
  unfold nbrs
  rw [List.mem_map]
  refine ⟨⟨u.x - p.x, u.y - p.y, u.z - p.z⟩, ?_, ?_⟩
  · rw [adjacent_iff] at hadj
    apply mem_offsets
    · have h1 : |p.x - u.x| ≤ cheb p u := abs_x_le_cheb p u
      rw [abs_sub_comm] at h1
      exact le_trans h1 hadj
    · have h1 : |p.y - u.y| ≤ cheb p u := abs_y_le_cheb p u
      rw [abs_sub_comm] at h1
      exact le_trans h1 hadj
    · have h1 : |p.z - u.z| ≤ cheb p u := abs_z_le_cheb p u
      rw [abs_sub_comm] at h1
      exact le_trans h1 hadj
    · intro hcontra
      apply hne
      rw [V3.mk.injEq] at hcontra
      rcases u with ⟨ux, uy, uz⟩
      rcases p with ⟨px, py, pz⟩
      simp only at hcontra
      rw [V3.mk.injEq]
      omega
  · rcases u with ⟨ux, uy, uz⟩
    rcases p with ⟨px, py, pz⟩
    simp only [V3.mk.injEq]
    refine ⟨by ring, by ring, by ring⟩

theorem expandNbrs_mem_of {pass : V3 → Bool} {closed : List Node} {p : V3} {gc : ℕ}
    {u : V3} (hu : u ∈ nbrs p) (hp : pass u = true) (hc : isClosed closed u = false) :
    (⟨u, p, gc + fpDist p u⟩ : Node) ∈ expandNbrs pass closed p gc := by
  unfold expandNbrs
  rw [List.mem_map]
  refine ⟨u, List.mem_filter.mpr ⟨hu, ?_⟩, rfl⟩
  rw [hp, hc]
  rfl

theorem isClosed_eq_false {closed : List Node} {v : V3} (h : v ∉ posList closed) :
    isClosed closed v = false := by
  by_cases hc : isClosed closed v = true
  · unfold isClosed at hc
    cases hl : lookupNode closed v with
    | none =>
      rw [hl] at hc
      exact absurd hc (by simp)
    | some n =>
      rcases lookupNode_mem hl with ⟨hn, hpos⟩
      exact absurd (mem_posList.mpr ⟨n, hn, hpos⟩) h
  · exact (Bool.not_eq_true _) ▸ hc

theorem isClosed_cons_self (n : Node) (closed : List Node) :
    isClosed (n :: closed) n.pos = true := by
  unfold isClosed lookupNode
  rw [List.find?_cons_of_pos _ (by simp)]
  rfl

theorem isClosed_cons_of_isClosed {closed : List Node} {v : V3} (n : Node)
    (h : isClosed closed v = true) : isClosed (n :: closed) v = true := by
  apply isClosed_of_mem
  rw [posList_cons]
  apply List.mem_cons_of_mem
  unfold isClosed at h
  cases hl : lookupNode closed v with
  | none =>
    rw [hl] at h
    exact absurd h (by simp)
  | some m =>
    rcases lookupNode_mem hl with ⟨hm, hpos⟩
    exact mem_posList.mpr ⟨m, hm, hpos⟩

theorem filter_length_mono {α : Type} {p q : α → Bool}
    (himp : ∀ x, q x = true → p x = true) :
    ∀ l : List α, (l.filter q).length ≤ (l.filter p).length := by
  intro l
  induction l with
  | nil => exact le_refl 0
  | cons x t ih =>
    by_cases hq : q x = true
    · rw [List.filter_cons_of_pos hq, List.filter_cons_of_pos (himp x hq)]
      simpa using ih
    · rw [List.filter_cons_of_neg (by simpa using hq)]
      by_cases hp : p x = true
      · rw [List.filter_cons_of_pos hp]
        exact le_trans ih (by simp)
      · rw [List.filter_cons_of_neg (by simpa using hp)]
        exact ih

theorem filter_length_lt {α : Type} {p q : α → Bool} {l : List α}
    (himp : ∀ x, q x = true → p x = true) {a : α} (ha : a ∈ l) (hpa : p a = true)
    (hqa : q a = false) : (l.filter q).length < (l.filter p).length := by
  induction l with
  | nil => exact absurd ha (List.not_mem_nil a)
  | cons x t ih =>
    rcases List.mem_cons.mp ha with heq | hmem
    · subst heq
      rw [List.filter_cons_of_pos hpa, List.filter_cons_of_neg (by simp [hqa])]
      exact Nat.lt_succ_of_le (filter_length_mono himp t)
    · by_cases hq : q x = true
      · rw [List.filter_cons_of_pos hq, List.filter_cons_of_pos (himp x hq)]
        simpa using ih hmem
      · rw [List.filter_cons_of_neg (by simpa using hq)]
        by_cases hp : p x = true
        · rw [List.filter_cons_of_pos hp]
          exact Nat.lt_succ_of_le (le_of_lt (ih hmem))
        · rw [List.filter_cons_of_neg (by simpa using hp)]
          exact ih hmem

theorem unclosedCount_lt {w : Window} {pass : V3 → Bool} {closed : List Node}
    {n2 : Node} (hpass : pass n2.pos = true) (hwin : inWindow w n2.pos = true)
    (hfresh : isClosed closed n2.pos = false) :
    unclosedCount w pass (n2 :: closed) < unclosedCount w pass closed := by
  unfold unclosedCount
  apply filter_length_lt
  · intro v hv
    rw [Bool.and_eq_true] at hv ⊢
    refine ⟨hv.1, ?_⟩
    have h2 := hv.2
    simp only [Bool.not_eq_true'] at h2 ⊢
    by_cases hc : isClosed closed v = true
    · exact absurd (isClosed_cons_of_isClosed n2 hc) (by simp [h2])
    · exact (Bool.not_eq_true _) ▸ hc
  · exact mem_boxCells.mpr hwin
  · rw [Bool.and_eq_true]
    exact ⟨hpass, by simp [Bool.not_eq_true', hfresh]⟩
  · simp [isClosed_cons_self]

theorem isClosed_mem {closed : List Node} {v : V3} (h : isClosed closed v = true) :
    v ∈ posList closed := by
  unfold isClosed at h
  cases hl : lookupNode closed v with
  | none =>
    rw [hl] at h
    exact absurd h (by simp)
  | some m =>
    rcases lookupNode_mem hl with ⟨hm, hpos⟩
    exact mem_posList.mpr ⟨m, hm, hpos⟩

/-!
Planner completeness: while the goal is reachable from some open node
through passable voxels avoiding the closed set, the loop cannot fail;
with the measure-sized fuel it returns a path.
-/

theorem loop_complete {los : V3 → V3 → Bool} {pass : V3 → Bool} {goal : V3} {w : Window}
    (hpw : ∀ v, pass v = true → inWindow w v = true) :
    ∀ (fuel : ℕ) (opn closed : List Node),
      (∀ n ∈ opn, pass n.pos = true) →
      goal ∉ posList closed →
      (∃ n ∈ opn, ReachA pass (fun v => v ∈ posList closed) n.pos goal) →
      searchMeasure w pass opn closed ≤ fuel →
      ∃ p, loop los pass goal fuel opn closed = .found p := by
  intro fuel
  induction fuel with
  | zero =>
    intro opn closed hPass hGoal hWit hM
    rcases hWit with ⟨n, hn, _⟩
    have hlen : 0 < opn.length := List.length_pos.mpr (List.ne_nil_of_mem hn)
    unfold searchMeasure at hM
    omega
  | succ f ih =>
    intro opn closed hPass hGoal hWit hM
    rw [loop_succ]
    cases hpop : popMin goal opn with
    | none =>
      rcases hWit with ⟨n, hn, _⟩
      rw [popMin_none hpop] at hn
      exact absurd hn (List.not_mem_nil n)
    | some pr =>
      rcases pr with ⟨n, rest⟩
      show ∃ p, (if isClosed closed n.pos then loop los pass goal f rest closed
        else
          if n.pos = goal then
            SearchResult.found (reconstruct (reparent los closed n :: closed)
              (reparent los closed n :: closed).length goal)
          else loop los pass goal f
            (rest ++ expandNbrs pass (reparent los closed n :: closed) n.pos
              (reparent los closed n).gc)
            (reparent los closed n :: closed)) = SearchResult.found p
      have hperm := popMin_perm hpop
      have hlen : opn.length = rest.length + 1 := by
        have hl2 := hperm.length_eq
        simpa using hl2
      have hsub : ∀ m ∈ rest, m ∈ opn := fun m hm =>
        hperm.symm.subset (List.mem_cons_of_mem n hm)
      by_cases hcl : isClosed closed n.pos = true
      · rw [if_pos hcl]
        refine ih rest closed (fun m hm => hPass m (hsub m hm)) hGoal ?_ ?_
        · rcases hWit with ⟨m, hm, hch⟩
          have hmne : m ∈ n :: rest := hperm.subset hm
          rcases List.mem_cons.mp hmne with heq | hmem
          · exfalso
            have hstart := (reachA_start hch).2
            rw [heq] at hstart
            exact hstart (isClosed_mem hcl)
          · exact ⟨m, hmem, hch⟩
        · unfold searchMeasure at hM ⊢
          omega
      · have hclF : isClosed closed n.pos = false := (Bool.not_eq_true _) ▸ hcl
        rw [if_neg hcl]
        have hn2pos := reparent_pos los closed n
        have hnmem : n ∈ opn := popMin_mem hpop
        have hnpass : pass n.pos = true := hPass n hnmem
        by_cases hgoal : n.pos = goal
        · rw [if_pos hgoal]
          exact ⟨_, rfl⟩
        · rw [if_neg hgoal]
          have hconv : ∀ v : V3, v ∈ posList (reparent los closed n :: closed) →
              (v ∈ posList closed ∨ v = n.pos) := by
            intro v hv
            rw [posList_cons, hn2pos] at hv
            rcases List.mem_cons.mp hv with hv | hv
            · exact Or.inr hv
            · exact Or.inl hv
          have hUdec : unclosedCount w pass (reparent los closed n :: closed) <
              unclosedCount w pass closed := by
            apply unclosedCount_lt
            · rw [hn2pos]
              exact hnpass
            · rw [hn2pos]
              exact hpw _ hnpass
            · rw [hn2pos]
              exact hclF
          refine ih _ _ ?_ ?_ ?_ ?_
          · intro m hm
            rcases List.mem_append.mp hm with hm | hm
            · exact hPass m (hsub m hm)
            · exact (mem_expandNbrs hm).2.1
          · rw [posList_cons, hn2pos]
            intro hcontra
            rcases List.mem_cons.mp hcontra with hcontra | hcontra
            · exact hgoal hcontra.symm
            · exact hGoal hcontra
          · rcases hWit with ⟨m, hm, hch⟩
            rcases reachA_extend hch n.pos (fun hcontra => hgoal hcontra.symm) with
              hl | ⟨u, hadj, hu⟩
            · have hch2 := reachA_mono_avoid hconv hl
              have hstart := (reachA_start hl).2
              have hmne : m ∈ n :: rest := hperm.subset hm
              rcases List.mem_cons.mp hmne with heq | hmem
              · exfalso
                apply hstart
                right
                rw [heq]
              · exact ⟨m, List.mem_append_left _ hmem, hch2⟩
            · have hch2 := reachA_mono_avoid hconv hu
              have hustart := reachA_start hu
              have hupass : pass u = true := hustart.1
              have hune : u ≠ n.pos := fun hcontra => hustart.2 (Or.inr hcontra)
              have humem : u ∈ nbrs n.pos := mem_nbrs_of_adjacent hadj hune
              have hunotclosed : isClosed (reparent los closed n :: closed) u = false := by
                apply isClosed_eq_false
                intro hcontra
                exact hustart.2 (hconv u hcontra)
              exact ⟨⟨u, n.pos, (reparent los closed n).gc + fpDist n.pos u⟩,
                List.mem_append_right _ (expandNbrs_mem_of humem hupass hunotclosed), hch2⟩
          · unfold searchMeasure at hM ⊢
            rw [List.length_append]
            have hpush := expandNbrs_length pass (reparent los closed n :: closed) n.pos
              (reparent los closed n).gc
            omega

/-!
Whole-invocation lemmas: a search succeeds whenever the goal is
reachable through passable voxels, a success certifies reachability and
a well-formed path, and relaxing passability (flexible side chains)
preserves success.
-/

theorem reach_pass_start {pass : V3 → Bool} {a b : V3} (h : Reach pass a b) :
    pass a = true := by
  induction h with
  | refl ha => exact ha
  | step b c hab hadj hc ih => exact ih

theorem reach_pass_end {pass : V3 → Bool} {a b : V3} (h : Reach pass a b) :
    pass b = true := by
  induction h with
  | refl ha => exact ha
  | step b c hab hadj hc ih => exact hc

theorem reach_mono_pass {p1 p2 : V3 → Bool} (himp : ∀ v, p1 v = true → p2 v = true)
    {a b : V3} (h : Reach p1 a b) : Reach p2 a b := by
  induction h with
  | refl ha => exact Reach.refl a (himp a ha)
  | step b c hab hadj hc ih => exact Reach.step a b c ih hadj (himp c hc)

theorem passable_inWindow {g : ObstacleGrid} {w : Window} {flex : Bool} {s e v : V3}
    (h : passable g w flex s e v = true) : inWindow w v = true := by
  unfold passable at h
  rw [Bool.and_eq_true] at h
  exact h.1

theorem passable_flex {g : ObstacleGrid} {w : Window} {s e v : V3}
    (h : passable g w false s e v = true) : passable g w true s e v = true := by
  unfold passable at h ⊢
  rw [Bool.and_eq_true] at h ⊢
  refine ⟨h.1, ?_⟩
  have h2 := h.2
  rw [Bool.false_and, Bool.or_false] at h2
  rw [h2]
  rfl

theorem searchTop_complete {los : V3 → V3 → Bool} {pass : V3 → Bool} {s goal : V3}
    {w : Window} (hpw : ∀ v, pass v = true → inWindow w v = true)
    (hreach : Reach pass s goal) :
    ∃ p, searchTop pass los s goal w = .found p := by
  have hs : pass s = true := reach_pass_start hreach
  have hg : pass goal = true := reach_pass_end hreach
  unfold searchTop
  rw [hs, hg]
  rw [if_pos (by rfl)]
  apply loop_complete hpw
  · intro m hm
    rw [List.mem_singleton] at hm
    subst hm
    exact hs
  · simp [posList]
  · refine ⟨⟨s, s, 0⟩, List.mem_singleton_self _, ?_⟩
    exact reach_reachA hreach
  · unfold searchMeasure unclosedCount
    have hf := List.length_filter_le (fun v => pass v && !isClosed [] v) (boxCells w)
    simp only [List.length_singleton]
    omega

theorem searchTop_sound {los : V3 → V3 → Bool} {pass : V3 → Bool} {s goal : V3}
    {w : Window} {p : List V3}
    (hAdj : ∀ a b : V3, adjacent a b = true → los a b = true)
    (h : searchTop pass los s goal w = .found p) :
    Reach pass s goal ∧ ∃ t, p = s :: t ∧ p.getLastD s = goal ∧ SegsLOS los p := by
  unfold searchTop at h
  by_cases hg : (pass s && pass goal) = true
  · rw [if_pos hg] at h
    rw [Bool.and_eq_true] at hg
    refine loop_sound hAdj _ _ _ _ ?_ ?_ ?_ ClosedOK.nil (by simp [posList]) h
    · intro m hm
      rw [List.mem_singleton] at hm
      subst hm
      exact Reach.refl s hg.1
    · intro m hm
      rw [List.mem_singleton] at hm
      subst hm
      exact hAdj s s (adjacent_self s)
    · intro m hm
      rw [List.mem_singleton] at hm
      subst hm
      exact Or.inr ⟨rfl, rfl⟩
  · rw [if_neg hg] at h
    exact absurd h (by simp)

theorem losFree_adj (g : ObstacleGrid) :
    ∀ u v : V3, adjacent u v = true → losFree g u v = true := fun _ _ hab =>
  losFree_of_adjacent (adjacent_iff.mp hab)

theorem searchTop_flex {g : ObstacleGrid} {w : Window} {s e : V3} {p : List V3}
    (h : searchTop (passable g w false s e) (losFree g) s e w = .found p) :
    ∃ q, searchTop (passable g w true s e) (losFree g) s e w = .found q := by
  have hsound := searchTop_sound (losFree_adj g) h
  have hreach : Reach (passable g w true s e) s e :=
    reach_mono_pass (fun v => passable_flex) hsound.1
  exact searchTop_complete (fun v hv => passable_inWindow hv) hreach

/-!
Distance-matrix assembler lemmas: the loop order covers every unordered
pair exactly once, and the symmetric fill is characterized pointwise.
-/

theorem mem_allPairs {n i j : ℕ} : (i, j) ∈ allPairs n ↔ i < j ∧ j < n := by
  unfold allPairs
  simp only [List.mem_flatMap, List.mem_map, List.mem_filter, List.mem_range,
    decide_eq_true_eq]
  constructor
  · rintro ⟨a, ha, b, ⟨hb, hab⟩, heq⟩
    rw [Prod.mk.injEq] at heq
    rcases heq with ⟨h1, h2⟩
    subst h1
    subst h2
    exact ⟨hab, hb⟩
  · intro h
    exact ⟨i, by omega, j, ⟨h.2, h.1⟩, rfl⟩

theorem pairsFold_aux (f : ℕ → ℕ → ℝ) :
    ∀ (L : List (ℕ × ℕ)) (M : Mat) (a b : ℕ),
      (∀ pr ∈ L, pr.1 < pr.2) →
      (L.foldl (fun M2 pr => fillPair M2 pr.1 pr.2 (f pr.1 pr.2)) M) a b =
        (if (a, b) ∈ L ∨ (b, a) ∈ L then f (min a b) (max a b) else M a b) := by
  intro L
  induction L with
  | nil =>
    intro M a b h
    simp
  | cons pr L ih =>
    intro M a b h
    rw [List.foldl_cons, ih _ a b (fun q hq => h q (List.mem_cons_of_mem pr hq))]
    by_cases hmem : (a, b) ∈ L ∨ (b, a) ∈ L
    · have houter : (a, b) ∈ pr :: L ∨ (b, a) ∈ pr :: L := by
        rcases hmem with hm | hm
        · exact Or.inl (List.mem_cons_of_mem pr hm)
        · exact Or.inr (List.mem_cons_of_mem pr hm)
      rw [if_pos hmem, if_pos houter]
    · rw [if_neg hmem]
      by_cases hpr : (a = pr.1 ∧ b = pr.2) ∨ (a = pr.2 ∧ b = pr.1)
      · have houter : (a, b) ∈ pr :: L ∨ (b, a) ∈ pr :: L := by
          rcases hpr with ⟨h1, h2⟩ | ⟨h1, h2⟩
          · left
            rw [List.mem_cons]
            left
            rw [h1, h2]
          · right
            rw [List.mem_cons]
            left
            rw [h1, h2]
        rw [if_pos houter]
        unfold fillPair
        rw [if_pos hpr]
        have hlt := h pr (List.mem_cons_self _ _)
        rcases hpr with ⟨h1, h2⟩ | ⟨h1, h2⟩
        · subst h1
          subst h2
          rw [min_eq_left (le_of_lt hlt), max_eq_right (le_of_lt hlt)]
        · subst h1
          subst h2
          rw [min_eq_right (le_of_lt hlt), max_eq_left (le_of_lt hlt)]
      · have houter : ¬ ((a, b) ∈ pr :: L ∨ (b, a) ∈ pr :: L) := by
          intro hor
          rcases hor with hor | hor
          · rcases List.mem_cons.mp hor with heq | hm
            · rw [Prod.ext_iff] at heq
              exact hpr (Or.inl heq)
            · exact hmem (Or.inl hm)
          · rcases List.mem_cons.mp hor with heq | hm
            · rw [Prod.ext_iff] at heq
              exact hpr (Or.inr ⟨heq.2, heq.1⟩)
            · exact hmem (Or.inr hm)
        rw [if_neg houter]
        unfold fillPair
        rw [if_neg hpr]

theorem pairsFold_eq (f : ℕ → ℕ → ℝ) (n a b : ℕ) :
    pairsFold f n a b =
      if a < b ∧ b < n then f a b
      else if b < a ∧ a < n then f b a
      else 0 := by
  unfold pairsFold
  rw [pairsFold_aux f (allPairs n) zeroMat a b ?_]
  · by_cases h1 : a < b ∧ b < n
    · rw [if_pos (Or.inl (mem_allPairs.mpr h1)), if_pos h1,
        min_eq_left (le_of_lt h1.1), max_eq_right (le_of_lt h1.1)]
    · by_cases h2 : b < a ∧ a < n
      · rw [if_pos (Or.inr (mem_allPairs.mpr h2)), if_neg h1, if_pos h2,
          min_eq_right (le_of_lt h2.1), max_eq_left (le_of_lt h2.1)]
      · rw [if_neg ?_, if_neg h1, if_neg h2]
        · rfl
        · intro hor
          rcases hor with hor | hor
          · exact h1 (mem_allPairs.mp hor)
          · exact h2 (mem_allPairs.mp hor)
  · intro pr hpr
    rcases pr with ⟨x, y⟩
    exact (mem_allPairs.mp hpr).1

theorem dmMatOf_eq (st : Xlink) (q : List ℕ) (cfg : DMConfig) (a b : ℕ) :
    dmMatOf st q cfg a b =
      if a < b ∧ b < q.length then flattenPO (pairOutAt st q cfg a b)
      else if b < a ∧ a < q.length then flattenPO (pairOutAt st q cfg b a)
      else 0 :=
  pairsFold_eq _ q.length a b

theorem dmPathsOf_mem {st : Xlink} {q : List ℕ} {cfg : DMConfig} {i j : ℕ}
    (hij : i < j) (hjn : j < q.length) :
    ((i, j), recPoints (pairOutAt st q cfg i j)) ∈ dmPathsOf st q cfg := by
  unfold dmPathsOf
  rw [List.mem_map]
  exact ⟨(i, j), mem_allPairs.mpr ⟨hij, hjn⟩, rfl⟩

theorem dmPathsOf_shape {st : Xlink} {q : List ℕ} {cfg : DMConfig} {r : PathRecord}
    (hr : r ∈ dmPathsOf st q cfg) :
    r.1.1 < r.1.2 ∧ r.1.2 < q.length ∧
      r.2 = recPoints (pairOutAt st q cfg r.1.1 r.1.2) := by
  unfold dmPathsOf at hr
  rcases List.mem_map.mp hr with ⟨pr, hpr, heq⟩
  rcases pr with ⟨i, j⟩
  have hm := mem_allPairs.mp hpr
  subst heq
  exact ⟨hm.1, hm.2, rfl⟩

/-!
Pair-pipeline lemmas: the out-of-range fast path, the failure path, the
collision-free straight-line fast path, and nonemptiness of successful
polylines.
-/

theorem flattenPO_oor : flattenPO .oor = -1 := rfl

theorem flattenPO_nf : flattenPO .nf = -2 := rfl

theorem flattenPO_ok (pts : List V3) : flattenPO (.ok pts) = arcLength pts := rfl

theorem recPoints_oor : recPoints .oor = [] := rfl

theorem recPoints_nf : recPoints .nf = [] := rfl

theorem recPoints_ok (pts : List V3) : recPoints (.ok pts) = pts := rfl

theorem windowFn_oor {g : ObstacleGrid} {s e : V3} {mr : ℕ}
    (h : (mr : ℤ) ^ 2 < sqDist s e) : windowFn g s e mr = none := by
  unfold windowFn
  rw [if_pos h]

theorem pairValue_oor {g : ObstacleGrid} {mr : ℕ} {cfg : DMConfig} {s e : V3}
    (h : (mr : ℤ) ^ 2 < sqDist s e) : pairValue g mr cfg s e = .oor := by
  unfold pairValue
  rw [windowFn_oor h]

theorem pairSearch_oor {g : ObstacleGrid} {mr : ℕ} {cfg : DMConfig} {s e : V3}
    (h : (mr : ℤ) ^ 2 < sqDist s e) : pairSearch g mr cfg s e = none := by
  unfold pairSearch
  rw [windowFn_oor h]
  rfl

theorem pairValue_nf {g : ObstacleGrid} {mr : ℕ} {cfg : DMConfig} {s e : V3}
    (h : pairSearch g mr cfg s e = some .notFound) : pairValue g mr cfg s e = .nf := by
  unfold pairSearch at h
  cases hw : windowFn g s e mr with
  | none =>
    rw [hw] at h
    exact absurd h (by simp)
  | some w =>
    rw [hw] at h
    simp only [Option.map_some', Option.some.injEq] at h
    simp only [pairValue, hw, h]

theorem pairValue_free {g : ObstacleGrid} {mr : ℕ} {cfg : DMConfig} {s e : V3}
    (hsm : cfg.smooth = true) (hdist : sqDist s e ≤ (mr : ℤ) ^ 2)
    (hfree : segFree g s e = true) :
    ∃ pts, pairValue g mr cfg s e = .ok pts ∧ arcLength pts = segLen s e := by
  cases hw : windowFn g s e mr with
  | none =>
    unfold windowFn at hw
    rw [if_neg (not_lt.mpr hdist)] at hw
    exact Option.noConfusion hw
  | some w =>
    have hcov := windowFn_covers hw
    have hreach := @reach_of_segFree g w cfg.flexible_sidechain s e hcov hfree
    rcases searchTop_complete (fun v hv => passable_inWindow hv) hreach with ⟨p, hst⟩
    have hst2 : searchTop (passable g w cfg.flexible_sidechain s e) (losFree g) s e w =
        SearchResult.found p := hst
    rcases searchTop_sound (losFree_adj g) hst2 with ⟨_, t, hp, hlast, _⟩
    refine ⟨smooth (losFree g) p, ?_, ?_⟩
    · simp only [pairValue, hw, hst2, hsm]
      rfl
    · subst hp
      cases t with
      | nil =>
        have he : s = e := by simpa using hlast
        show arcLength (smooth (losFree g) [s]) = segLen s e
        rw [← he]
        show arcLength [s] = segLen s s
        rw [arcLength_single, segLen_self]
      | cons c t2 =>
        have hlos : losFree g s e = true := segFree_losFree hfree
        have hlast2 : (c :: t2).getLastD s = e := by
          rw [List.getLastD_cons] at hlast
          exact hlast
        show arcLength (smooth (losFree g) (s :: c :: t2)) = segLen s e
        rw [smooth_straight (List.cons_ne_nil c t2) hlast2 hlos]
        rw [arcLength_cons_cons, arcLength_single, add_zero]

theorem pairValue_ok_ne_nil {g : ObstacleGrid} {mr : ℕ} {cfg : DMConfig} {s e : V3}
    {pts : List V3} (h : pairValue g mr cfg s e = .ok pts) : pts ≠ [] := by
  cases hw : windowFn g s e mr with
  | none =>
    simp only [pairValue, hw] at h
    exact absurd h (by simp)
  | some w =>
    simp only [pairValue, hw] at h
    cases hst : searchTop (passable g w cfg.flexible_sidechain s e) (losFree g) s e w with
    | notFound =>
      rw [hst] at h
      exact absurd h (by simp)
    | fuelOut =>
      rw [hst] at h
      exact absurd h (by simp)
    | found p =>
      rw [hst] at h
      have hpne : p ≠ [] := by
        rcases searchTop_sound (losFree_adj g) hst with ⟨_, t, hp, _, _⟩
        rw [hp]
        exact List.cons_ne_nil _ _
      simp only [PairOut.ok.injEq] at h
      rw [← h]
      by_cases hsm : cfg.smooth = true
      · rw [if_pos hsm]
        exact smooth_ne_nil hpne
      · rw [if_neg hsm]
        exact hpne

theorem validInput_parts {st : Xlink} {q : List ℕ} {cfg : DMConfig}
    (h : validInput st q cfg = true) :
    st.grid.isSome = true ∧ q.isEmpty = false ∧ cfg.method = "theta" := by
  unfold validInput at h
  rw [Bool.and_eq_true, Bool.and_eq_true] at h
  refine ⟨h.1.1, ?_, ?_⟩
  · have h2 := h.1.2
    simp only [Bool.not_eq_true'] at h2
    exact h2
  · have h3 := h.2
    simpa using h3

theorem distance_matrix_ok {st : Xlink} {q : List ℕ} {cfg : DMConfig}
    (h : validInput st q cfg = true) :
    distance_matrix st q cfg =
      .ok (dmMatOf st q cfg, if cfg.get_path then dmPathsOf st q cfg else []) := by
  rcases validInput_parts h with ⟨hg, hq, hm⟩
  cases hgr : st.grid with
  | none =>
    rw [hgr] at hg
    exact absurd hg (by simp)
  | some g0 =>
    simp [distance_matrix, hgr, hq, hm]

/-!
The claims.
-/

/-- C1: for every valid input to `distance_matrix` (non-empty query
index list, valid configuration), the returned matrix is symmetric:
`M[i][j] = M[j][i]` for all indices `i`, `j`. -/
theorem C1_distance_matrix_symmetric (st : Xlink) (q : List ℕ) (cfg : DMConfig)
    ( _hvalid : validInput st q cfg = true) (i j : ℕ) :
    dmMatOf st q cfg i j = dmMatOf st q cfg j i := by
  rw [dmMatOf_eq, dmMatOf_eq]
  rcases Nat.lt_trichotomy i j with h | h | h
  · by_cases hn : j < q.length
    · rw [if_pos ⟨h, hn⟩, if_neg (by omega), if_pos ⟨h, hn⟩]
    · rw [if_neg (by omega), if_neg (by omega), if_neg (by omega), if_neg (by omega)]
  · subst h
    rfl
  · by_cases hn : i < q.length
    · rw [if_neg (by omega), if_pos ⟨h, hn⟩, if_pos ⟨h, hn⟩]
    · rw [if_neg (by omega), if_neg (by omega), if_neg (by omega), if_neg (by omega)]

/-- Witness for C1 at a concrete driver state and query list. -/
theorem C1_witness :
    validInput exXlink [0, 1] exCfg = true ∧
    dmMatOf exXlink [0, 1] exCfg 0 1 = dmMatOf exXlink [0, 1] exCfg 1 0 :=
  ⟨by decide, C1_distance_matrix_symmetric exXlink [0, 1] exCfg (by decide) 0 1⟩

/-- C2: for every valid input to `distance_matrix`, every diagonal entry
`M[i][i]` of the returned matrix is exactly 0. -/
theorem C2_diagonal_zero (st : Xlink) (q : List ℕ) (cfg : DMConfig)
    ( _hvalid : validInput st q cfg = true) (i : ℕ) :
    dmMatOf st q cfg i i = 0 := by
  rw [dmMatOf_eq, if_neg (by omega), if_neg (by omega)]

/-- Witness for C2 at a concrete driver state and query list. -/
theorem C2_witness : validInput exXlink [0, 1] exCfg = true ∧
    dmMatOf exXlink [0, 1] exCfg 0 0 = 0 :=
  ⟨by decide, C2_diagonal_zero exXlink [0, 1] exCfg (by decide) 0⟩

/-- C3: for every query pair whose endpoints are farther apart
(Euclidean, in grid units) than the configured maximum reach, the window
derivation flags it out of range and the planner is never invoked
(`pairSearch` is `none`), the recorded matrix entry is exactly -1, and
the pair's path record is empty. -/
theorem C3_out_of_range_sentinel (st : Xlink) (q : List ℕ) (cfg : DMConfig)
    ( _hvalid : validInput st q cfg = true) (i j : ℕ) (hij : i < j) (hjn : j < q.length)
    (hfar : (st.maxReach : ℤ) ^ 2 < sqDist (queryVox st q i) (queryVox st q j)) :
    windowFn (gridOf st) (queryVox st q i) (queryVox st q j) st.maxReach = none ∧
    pairSearch (gridOf st) st.maxReach cfg (queryVox st q i) (queryVox st q j) = none ∧
    dmMatOf st q cfg i j = -1 ∧
    ((i, j), ([] : List V3)) ∈ dmPathsOf st q cfg := by
  have hout : pairOutAt st q cfg i j = .oor := pairValue_oor hfar
  refine ⟨windowFn_oor hfar, pairSearch_oor hfar, ?_, ?_⟩
  · rw [dmMatOf_eq, if_pos ⟨hij, hjn⟩, hout, flattenPO_oor]
  · have hrec := @dmPathsOf_mem st q cfg i j hij hjn
    rw [hout, recPoints_oor] at hrec
    exact hrec

/-- Witness for C3: a pair 4 grid units apart with maximum reach 2. -/
theorem C3_witness :
    validInput exXlink [0, 3] exCfg = true ∧
    dmMatOf exXlink [0, 3] exCfg 0 1 = -1 := by
  refine ⟨by decide, ?_⟩
  exact (C3_out_of_range_sentinel exXlink [0, 3] exCfg (by decide) 0 1 (by decide)
    (by decide) (by decide)).2.2.1

/-- C4: for every query pair for which the planner exhausts its open set
(result `notFound`), the recorded matrix entry is exactly -2, the pair's
path record is empty, and every other entry of the matrix is the one
determined by its own pair alone (no failure propagates). -/
theorem C4_path_not_found_sentinel (st : Xlink) (q : List ℕ) (cfg : DMConfig)
    ( _hvalid : validInput st q cfg = true) (i j : ℕ) (hij : i < j) (hjn : j < q.length)
    (hnf : pairSearch (gridOf st) st.maxReach cfg (queryVox st q i) (queryVox st q j) =
      some .notFound) :
    dmMatOf st q cfg i j = -2 ∧
    ((i, j), ([] : List V3)) ∈ dmPathsOf st q cfg ∧
    ∀ k l : ℕ, dmMatOf st q cfg k l =
      (if k < l ∧ l < q.length then flattenPO (pairOutAt st q cfg k l)
       else if l < k ∧ k < q.length then flattenPO (pairOutAt st q cfg l k) else 0) := by
  have hout : pairOutAt st q cfg i j = .nf := pairValue_nf hnf
  refine ⟨?_, ?_, fun k l => dmMatOf_eq st q cfg k l⟩
  · rw [dmMatOf_eq, if_pos ⟨hij, hjn⟩, hout, flattenPO_nf]
  · have hrec := @dmPathsOf_mem st q cfg i j hij hjn
    rw [hout, recPoints_nf] at hrec
    exact hrec

/-- Witness for C4: the goal voxel of the pair is blocked, so the search
exhausts its open set at once. -/
theorem C4_witness :
    pairSearch (gridOf exXlink) exXlink.maxReach exCfg (queryVox exXlink [0, 2] 0)
      (queryVox exXlink [0, 2] 1) = some .notFound ∧
    dmMatOf exXlink [0, 2] exCfg 0 1 = -2 := by
  refine ⟨by decide, ?_⟩
  exact (C4_path_not_found_sentinel exXlink [0, 2] exCfg (by decide) 0 1 (by decide)
    (by decide) (by decide)).1

/-!
Faithfulness of the voxel mapping: the numerator/denominator arithmetic
of `floorSubDiv` computes exactly the componentwise rational floor of
`(point - origin) / voxelSize`.
-/

theorem floorSubDiv_eq (a c b : ℚ) (hb : 0 < b) : floorSubDiv a c b = ⌊(a - c) / b⌋ := by
  unfold floorSubDiv
  have had : (0 : ℤ) < (a.den : ℤ) := by exact_mod_cast a.pos
  have hcd : (0 : ℤ) < (c.den : ℤ) := by exact_mod_cast c.pos
  have hbn : (0 : ℤ) < b.num := Rat.num_pos.mpr hb
  have hDpos : (0 : ℤ) < (a.den : ℤ) * (c.den : ℤ) * b.num := by positivity
  rw [Int.fdiv_eq_ediv _ (le_of_lt hDpos)]
  have hbne : b ≠ 0 := ne_of_gt hb
  have hadq : ((a.den : ℕ) : ℚ) ≠ 0 := by
    have h2 := a.pos
    intro hq
    norm_cast at hq
    omega
  have hcdq : ((c.den : ℕ) : ℚ) ≠ 0 := by
    have h2 := c.pos
    intro hq
    norm_cast at hq
    omega
  have hbdq : ((b.den : ℕ) : ℚ) ≠ 0 := by
    have h2 := b.pos
    intro hq
    norm_cast at hq
    omega
  have hna : ((a.num : ℤ) : ℚ) = a * ((a.den : ℕ) : ℚ) :=
    (div_eq_iff hadq).mp (Rat.num_div_den a)
  have hnc : ((c.num : ℤ) : ℚ) = c * ((c.den : ℕ) : ℚ) :=
    (div_eq_iff hcdq).mp (Rat.num_div_den c)
  have hnb : ((b.num : ℤ) : ℚ) = b * ((b.den : ℕ) : ℚ) :=
    (div_eq_iff hbdq).mp (Rat.num_div_den b)
  have hx : (a - c) / b =
      (((a.num * (c.den : ℤ) - c.num * (a.den : ℤ)) * (b.den : ℤ) : ℤ) : ℚ) /
        (((a.den : ℤ) * (c.den : ℤ) * b.num : ℤ) : ℚ) := by
    rw [div_eq_div_iff (by exact_mod_cast hbne) (by exact_mod_cast ne_of_gt hDpos)]
    push_cast
    rw [hna, hnc, hnb]
    ring
  rw [hx]
  have hD' : ((((a.den : ℤ) * (c.den : ℤ) * b.num).toNat : ℕ) : ℤ) =
      (a.den : ℤ) * (c.den : ℤ) * b.num := Int.toNat_of_nonneg (le_of_lt hDpos)
  have hDQ : ((((a.den : ℤ) * (c.den : ℤ) * b.num : ℤ)) : ℚ) =
      ((((a.den : ℤ) * (c.den : ℤ) * b.num).toNat : ℕ) : ℚ) := by
    exact_mod_cast hD'.symm
  rw [hDQ, Rat.floor_intCast_div_natCast, hD']

theorem toVoxel_floor (g : ObstacleGrid) (p : Q3) (hv : 0 < g.voxelSize) :
    toVoxel g p =
      ⟨⌊(p.x - g.origin.x) / g.voxelSize⌋, ⌊(p.y - g.origin.y) / g.voxelSize⌋,
        ⌊(p.z - g.origin.z) / g.voxelSize⌋⟩ := by
  unfold toVoxel
  rw [floorSubDiv_eq _ _ _ hv, floorSubDiv_eq _ _ _ hv, floorSubDiv_eq _ _ _ hv]

/-- C5: for every query pair whose endpoints are joined by a
collision-free straight line shorter than the maximum reach, the search
succeeds and the recorded distance (with the smoothing postprocessing of
the pipeline enabled) is at least the straight-line Euclidean distance
between the endpoint voxels and at most that distance plus one voxel
diagonal of discretization slack. -/
theorem C5_straight_line_success (st : Xlink) (q : List ℕ) (cfg : DMConfig)
    ( _hvalid : validInput st q cfg = true) (hsm : cfg.smooth = true) (i j : ℕ)
    (hij : i < j) (hjn : j < q.length)
    (hnear : sqDist (queryVox st q i) (queryVox st q j) < (st.maxReach : ℤ) ^ 2)
    (hfree : segFree (gridOf st) (queryVox st q i) (queryVox st q j) = true) :
    (∃ pts, pairOutAt st q cfg i j = .ok pts) ∧
    segLen (queryVox st q i) (queryVox st q j) ≤ dmMatOf st q cfg i j ∧
    dmMatOf st q cfg i j ≤ segLen (queryVox st q i) (queryVox st q j) + Real.sqrt 3 := by
  rcases pairValue_free hsm (le_of_lt hnear) hfree with ⟨pts, hok, harc⟩
  have hout : pairOutAt st q cfg i j = .ok pts := hok
  have hmat : dmMatOf st q cfg i j = arcLength pts := by
    rw [dmMatOf_eq, if_pos ⟨hij, hjn⟩, hout, flattenPO_ok]
  refine ⟨⟨pts, hout⟩, ?_, ?_⟩
  · rw [hmat, harc]
  · rw [hmat, harc]
    exact le_add_of_nonneg_right (Real.sqrt_nonneg 3)

/-- Witness for C5: an obstacle-free pair one voxel apart. -/
theorem C5_witness :
    validInput exXlink [0, 1] exCfg = true ∧
    segLen (queryVox exXlink [0, 1] 0) (queryVox exXlink [0, 1] 1) ≤
      dmMatOf exXlink [0, 1] exCfg 0 1 :=
  ⟨by decide, (C5_straight_line_success exXlink [0, 1] exCfg (by decide) (by decide) 0 1
    (by decide) (by decide) (by decide) (by decide)).2.1⟩

/-- C6: for every raw voxel path produced by the planner, the smoothed
polyline has at most as many points, its arc length never exceeds the
raw path's arc length, and every one of its segments passes the
line-of-sight collision test against the Obstacle Grid. -/
theorem C6_smoother_properties (g : ObstacleGrid) (w : Window) (flex : Bool) (s e : V3)
    (p : List V3)
    (hfound : searchTop (passable g w flex s e) (losFree g) s e w = .found p) :
    (smooth (losFree g) p).length ≤ p.length ∧
    arcLength (smooth (losFree g) p) ≤ arcLength p ∧
    SegsLOS (losFree g) (smooth (losFree g) p) := by
  rcases searchTop_sound (losFree_adj g) hfound with ⟨_, t, hp, _, hchain⟩
  exact ⟨smooth_length_le _ _, smooth_arc_le _ _, smooth_segsLOS _ _ hchain⟩

/-- Witness for C6 on a concrete successful search. -/
theorem C6_witness :
    searchTop (passable exGrid exW false ⟨0, 0, 0⟩ ⟨0, 0, 0⟩) (losFree exGrid)
      ⟨0, 0, 0⟩ ⟨0, 0, 0⟩ exW = .found [⟨0, 0, 0⟩] ∧
    (smooth (losFree exGrid) [⟨0, 0, 0⟩]).length ≤ ([⟨0, 0, 0⟩] : List V3).length := by
  refine ⟨by decide, ?_⟩
  exact (C6_smoother_properties exGrid exW false ⟨0, 0, 0⟩ ⟨0, 0, 0⟩ [⟨0, 0, 0⟩]
    (by decide)).1

/-- C7: for a fixed Obstacle Grid and search window, every query pair
the search resolves without the flexible-side-chain relaxation is also
resolved with the relaxation enabled: relaxing passability never turns a
success into a failure. -/
theorem C7_flexible_never_breaks (g : ObstacleGrid) (w : Window) (s e : V3) (p : List V3)
    (hfound : searchTop (passable g w false s e) (losFree g) s e w = .found p) :
    ∃ p2, searchTop (passable g w true s e) (losFree g) s e w = .found p2 :=
  searchTop_flex hfound

/-- Witness for C7 on a concrete successful strict search. -/
theorem C7_witness :
    ∃ p2, searchTop (passable exGrid exW true ⟨0, 0, 0⟩ ⟨0, 0, 0⟩) (losFree exGrid)
      ⟨0, 0, 0⟩ ⟨0, 0, 0⟩ exW = .found p2 :=
  C7_flexible_never_breaks exGrid exW ⟨0, 0, 0⟩ ⟨0, 0, 0⟩ [⟨0, 0, 0⟩] (by decide)

/-- C8: once built, the Obstacle Grid is never modified: window
derivation, planner search, smoothing and the whole `distance_matrix`
call all return the driver state with the same grid, and in particular
the same occupancy states, origin, voxel size and extents. -/
theorem C8_grid_immutable (st : Xlink) (s e : V3) (w : Window) (flex : Bool)
    (p : List V3) (q : List ℕ) (cfg : DMConfig) :
    (windowOp st s e).2.grid = st.grid ∧
    (searchOp st w flex s e).2.grid = st.grid ∧
    (smoothOp st p).2.grid = st.grid ∧
    (distance_matrixOp st q cfg).2.grid = st.grid ∧
    (∀ v, isBlocked (gridOf (distance_matrixOp st q cfg).2) v = isBlocked (gridOf st) v) ∧
    (gridOf (distance_matrixOp st q cfg).2).origin = (gridOf st).origin ∧
    (gridOf (distance_matrixOp st q cfg).2).voxelSize = (gridOf st).voxelSize ∧
    (gridOf (distance_matrixOp st q cfg).2).dim = (gridOf st).dim :=
  ⟨rfl, rfl, rfl, rfl, fun _ => rfl, rfl, rfl, rfl⟩

/-- C9: for every molecule and every selection expressible in both
interfaces, the pattern-based `atomselect` and the query-expression
interface return the same positions and the same atom indices. -/
theorem C9_atomselect_query_equiv (M : Molecule) (c r n : Sel) :
    query M (queryOfSelect c r n) = atomselect M c r n := by
  have hf : List.filter (fun i => qEval (M.atoms.getD i defaultAtom) (queryOfSelect c r n))
      (List.range M.atoms.length) =
      List.filter (fun i => atomMatch c r n (M.atoms.getD i defaultAtom))
        (List.range M.atoms.length) := by
    apply List.filter_congr
    intro i _
    cases c <;> cases r <;> cases n <;>
      simp [queryOfSelect, qEval, atomMatch, selMatch, Bool.and_assoc]
  unfold query atomselect
  rw [hf]

/-- C10: with `get_path`, `distance_matrix` returns one record per
evaluated pair whose second component is the pair's polyline; that
component is empty exactly for failed pairs, and filtering the records
by nonempty point lists before stacking yields only nonempty polylines
of successful pairs. -/
theorem C10_path_records (st : Xlink) (q : List ℕ) (cfg : DMConfig)
    (hvalid : validInput st q cfg = true) (hgp : cfg.get_path = true) :
    distance_matrix st q cfg = .ok (dmMatOf st q cfg, dmPathsOf st q cfg) ∧
    (∀ r ∈ dmPathsOf st q cfg,
      (r.2 = [] ↔ (pairOutAt st q cfg r.1.1 r.1.2 = .oor ∨
        pairOutAt st q cfg r.1.1 r.1.2 = .nf))) ∧
    (∀ l ∈ ((dmPathsOf st q cfg).filter (fun r2 => decide (0 < r2.2.length))).map
        (fun r2 => r2.2), l ≠ [] ∧ ∃ i j pts, i < j ∧ j < q.length ∧
          pairOutAt st q cfg i j = .ok pts ∧ l = pts) := by
  refine ⟨?_, ?_, ?_⟩
  · rw [distance_matrix_ok hvalid, hgp]
    rw [if_pos (by rfl)]
  · intro r hr
    rcases dmPathsOf_shape hr with ⟨hij, hjn, hr2⟩
    rw [hr2]
    cases hout : pairOutAt st q cfg r.1.1 r.1.2 with
    | oor => simp [recPoints]
    | nf => simp [recPoints]
    | ok pts =>
      rw [recPoints_ok]
      constructor
      · intro hpts
        exact absurd hpts (pairValue_ok_ne_nil hout)
      · intro hor
        rcases hor with h | h
        · exact absurd h (by simp)
        · exact absurd h (by simp)
  · intro l hl
    rcases List.mem_map.mp hl with ⟨r, hrf, hleq⟩
    rcases List.mem_filter.mp hrf with ⟨hr, hcond⟩
    rcases dmPathsOf_shape hr with ⟨hij, hjn, hr2⟩
    rw [decide_eq_true_eq] at hcond
    subst hleq
    constructor
    · intro hnil
      rw [hnil] at hcond
      simp at hcond
    · cases hout : pairOutAt st q cfg r.1.1 r.1.2 with
      | oor =>
        rw [hr2, hout, recPoints_oor] at hcond
        simp at hcond
      | nf =>
        rw [hr2, hout, recPoints_nf] at hcond
        simp at hcond
      | ok pts =>
        exact ⟨r.1.1, r.1.2, pts, hij, hjn, hout, by rw [hr2, hout, recPoints_ok]⟩

/-- Witness for C10 at a concrete driver state and query list. -/
theorem C10_witness :
    validInput exXlink [0, 1] exCfg = true ∧ exCfg.get_path = true ∧
    distance_matrix exXlink [0, 1] exCfg =
      .ok (dmMatOf exXlink [0, 1] exCfg, dmPathsOf exXlink [0, 1] exCfg) :=
  ⟨by decide, by decide, (C10_path_records exXlink [0, 1] exCfg (by decide) (by decide)).1⟩
